import Mathlib

/-!
Verification of the CustomDatabase storage engine against its specification.

This file gives a shallow embedding, in Lean 4, of the parts of the engine
that the checked claims are about:

* the page structure and its content hash (`include/page_manager.h`,
  `include/content_hash.h`),
* the content-addressed page store (`include/content_storage.h`),
* the LRU page cache's flush path (`src/page_cache.cpp`),
* the asynchronous writer queue's enqueue path (`src/writer_queue.cpp`),
* the WAL manager's truncate operation (`src/wal.cpp`),
* the job scheduler's priority comparator (`include/job_scheduler.h`),
* the B+-tree operations of `src/Btree.cpp` (the `ContentStorage`-backed
  variant), restricted to runs in which the root stays a single leaf.

C++ vectors are modelled as Lean lists, machine integers as `Nat` (with
explicit `% 2 ^ w` where wrap-around matters), fallible operations as
`Option`, and the mutation of an object as a function from the old value to
the new one.  The tree instantiation modelled is `BTree<int, int>`:
4-byte little-endian keys and values.
-/

/-- Association-list lookup with decidable key equality.  It models
`std::unordered_map::find`: the maps in the source keep their keys unique,
so returning the first match is exact. -/
def lookupKV {κ ν : Type} [DecidableEq κ] (k : κ) : List (κ × ν) → Option ν
  | [] => none
  | (k2, v) :: rest => if k = k2 then some v else lookupKV k rest

/-- Size in bytes of the tree's key and value type (`sizeof(int)` in the
`BTree<int, int>` instantiation). -/
def valueSize : Nat := 4

/-- Little-endian byte image of a 4-byte integer, as produced by the
`reinterpret_cast<const uint8_t*>` serialisations in `Btree.cpp` and by the
key serialisation loop of `Page::updateContentHash`. -/
def intLEBytes (v : Nat) : List Nat :=
  [v % 256, v / 256 % 256, v / 256 ^ 2 % 256, v / 256 ^ 3 % 256]

/-- Reading a 4-byte little-endian buffer back into an integer, as the
`std::memcpy` into a fresh `ValueType` does in `BTree::search`. -/
def deserializeValue (bs : List Nat) : Nat :=
  bs.foldr (fun b acc => b + 256 * acc) 0

/-- Model of `std::hash<std::string>` applied to a byte string: a 64-bit
FNV-1a fold.  The C++ standard leaves `std::hash` implementation-defined;
every property proved below uses only that it is a deterministic function of
the input bytes, which the standard does guarantee, so any concrete
stand-in is faithful for those properties. -/
def stdHashBytes (bs : List Nat) : Nat :=
  bs.foldl (fun h b => ((h ^^^ b % 256) * 1099511628211) % 2 ^ 64) 14695981039346656037

/-- Model of `ContentHash::computeHash` (`include/content_hash.h`): the
source builds a `std::string` from the bytes, applies `std::hash<std::string>`
and renders the resulting `size_t` with `std::to_string`, so the digest is a
decimal string of a 64-bit hash and not a SHA-256 hex digest. -/
def ContentHash.computeHash (data : List Nat) : String :=
  toString (stdHashBytes data)

/-- Header metadata of a page (`PageHeader` in `include/page_manager.h`).
The slot bookkeeping fields, the record checksum and the flags are carried
but unused by the operations modelled here. -/
structure PageHeader where
  page_id : Nat
  num_slots : Nat
  free_space_offset : Nat
  free_space_size : Nat
  checksum : String
  content_hash : String
  flags : Nat
deriving DecidableEq

/-- A B+-tree page (`Page<KeyType>` in `include/page_manager.h`), for the
`int` key type: keys and child page ids are lists of naturals, `data` is the
raw value byte buffer of leaves. -/
structure Page where
  header : PageHeader
  is_leaf : Bool
  keys : List Nat
  children : List Nat
  data : List Nat
deriving DecidableEq

/-- Canonical byte image hashed by `Page::updateContentHash`: the
little-endian bytes of every key followed by the raw `data` buffer.  The
`children` vector is not part of the image. -/
def pageContentBytes (p : Page) : List Nat :=
  (p.keys.map intLEBytes).flatten ++ p.data

/-- Model of `Page::updateContentHash` (`include/page_manager.h`): recompute
the content hash over keys and data and store it in the header. -/
def Page.updateContentHash (p : Page) : Page :=
  { p with header := { p.header with
      content_hash := ContentHash.computeHash (pageContentBytes p) } }

/-- Model of `Page::getContentHash`. -/
def Page.getContentHash (p : Page) : String :=
  p.header.content_hash

/-- Model of `createPage<KeyType>` (`src/page_manager.cpp`): a fresh page
with empty keys, children and data; members not assigned by the constructor
default-construct to zero and the empty string. -/
def createPage (is_leaf : Bool) : Page :=
  { header := { page_id := 0, num_slots := 0, free_space_offset := 0,
                free_space_size := 0, checksum := "", content_hash := "", flags := 0 },
    is_leaf := is_leaf, keys := [], children := [], data := [] }

/-- State of the content-addressed store (`ContentStorage<KeyType>` in
`include/content_storage.h`): hash-to-page map, page-id-to-hash map and the
next free page id (initialised to 1). -/
structure ContentStorage where
  content_map : List (String × Page)
  page_to_hash : List (Nat × String)
  next_page_id : Nat
deriving DecidableEq

/-- A freshly constructed `ContentStorage`. -/
def emptyStorage : ContentStorage :=
  { content_map := [], page_to_hash := [], next_page_id := 1 }

/-- Model of `ContentStorage::storePage`: hash a copy of the page; on a
dedup hit return the id of the already-stored page and leave the store
untouched, otherwise allocate `next_page_id`, record the page under its
hash in both maps, and return the new id. -/
def ContentStorage.storePage (s : ContentStorage) (page : Page) : Nat × ContentStorage :=
  let page_copy := Page.updateContentHash page
  let content_hash := page_copy.getContentHash
  match lookupKV content_hash s.content_map with
  | some existing => (existing.header.page_id, s)
  | none =>
    let stored := { page_copy with header := { page_copy.header with page_id := s.next_page_id } }
    (s.next_page_id,
      { content_map := (content_hash, stored) :: s.content_map,
        page_to_hash := (s.next_page_id, content_hash) :: s.page_to_hash,
        next_page_id := s.next_page_id + 1 })

/-- Model of `ContentStorage::getPage`: two-step lookup through
`page_to_hash` and `content_map`; `none` models the null `shared_ptr`. -/
def ContentStorage.getPage (s : ContentStorage) (page_id : Nat) : Option Page :=
  match lookupKV page_id s.page_to_hash with
  | none => none
  | some h => lookupKV h s.content_map

/-- A cache slot (`CachedPage<KeyType>` in `include/page_cache.h`); the
access timestamp is irrelevant to the claims and omitted. -/
structure CacheEntry where
  page : Page
  is_dirty : Bool
deriving DecidableEq

/-- State of the LRU page cache (`PageCache<KeyType>`); only the map of
cached pages and the size bound matter to the flush claim, the LRU order
bookkeeping is not consulted by `flushAll`. -/
structure PageCache where
  cache : List (Nat × CacheEntry)
  max_cache_size : Nat
deriving DecidableEq

/-- Loop body of `PageCache::flushAll` (`src/page_cache.cpp`): walk the
cache entries; for each dirty one, store its page into content storage,
clear the dirty flag and count it. -/
def flushEntries : List (Nat × CacheEntry) → ContentStorage →
    List (Nat × CacheEntry) × ContentStorage × Nat
  | [], s => ([], s, 0)
  | (pid, e) :: rest, s =>
    if e.is_dirty then
      let s2 := (ContentStorage.storePage s e.page).2
      let r := flushEntries rest s2
      ((pid, { e with is_dirty := false }) :: r.1, r.2.1, r.2.2 + 1)
    else
      let r := flushEntries rest s
      ((pid, e) :: r.1, r.2.1, r.2.2)

/-- Model of `PageCache::flushAll`: flush every dirty entry to the content
store, returning the updated cache, the updated store and the number of
pages written back (the `flushed` counter the source prints). -/
def PageCache.flushAll (c : PageCache) (s : ContentStorage) :
    PageCache × ContentStorage × Nat :=
  let r := flushEntries c.cache s
  ({ c with cache := r.1 }, r.2.1, r.2.2)

/-- Dirty bit of a page id in the cache; `false` for uncached ids. -/
def PageCache.isDirty (c : PageCache) (page_id : Nat) : Bool :=
  match lookupKV page_id c.cache with
  | some e => e.is_dirty
  | none => false

/-- State of the bounded writer queue (`WriterQueue<KeyType>` in
`include/writer_queue.h`): the pending write requests and the size bound.
Thread bookkeeping does not enter `enqueueWrite`. -/
structure WriterQueue where
  write_queue : List (Nat × Page)
  max_queue_size : Nat
deriving DecidableEq

/-- The writer queue together with the page cache it holds a pointer to;
`enqueueWrite` runs against this pair and, as in the source, never touches
the cache component. -/
structure WriterSystem where
  wq : WriterQueue
  page_cache : PageCache
deriving DecidableEq

/-- Model of `WriterQueue::enqueueWrite` (`src/writer_queue.cpp`): if the
queue already holds `max_queue_size` requests, report failure and drop the
request; otherwise append it.  The body never accesses the page cache. -/
def WriterQueue.enqueueWrite (sys : WriterSystem) (page_id : Nat) (page : Page) :
    Bool × WriterSystem :=
  if sys.wq.write_queue.length ≥ sys.wq.max_queue_size then
    (false, sys)
  else
    (true, { sys with wq := { sys.wq with
        write_queue := sys.wq.write_queue ++ [(page_id, page)] } })

/-- WAL record kinds (`WALRecordType` in `include/wal.h`). -/
inductive WALRecordType
  | INSERT | DELETE | UPDATE | CHECKPOINT | COMMIT | ABORT
deriving DecidableEq

/-- A WAL record header (`WALRecordHeader` in `include/wal.h`); the
timestamp is irrelevant to the truncate claim and omitted. -/
structure WALRecordHeader where
  type : WALRecordType
  record_size : Nat
  transaction_id : Nat
  lsn : Nat
  checksum : Nat
deriving DecidableEq

/-- State of the WAL manager (`WALManager<KeyType>` in `include/wal.h`):
the records of the on-disk log file in append order, plus the atomic
counters. -/
structure WALManager where
  wal_file : List WALRecordHeader
  next_lsn : Nat
  next_transaction_id : Nat
  last_checkpoint_lsn : Nat
deriving DecidableEq

/-- Model of `WALManager::truncate` (`src/wal.cpp`, lines 197-202): the
body acquires the mutex and prints a message, and performs no modification
of the log file or of any counter, so the state is returned unchanged. -/
def WALManager.truncate (w : WALManager) (up_to_lsn : Nat) : WALManager :=
  w

/-- Job priorities (`JobPriority` in `include/job_scheduler.h`). -/
inductive JobPriority
  | LOW | NORMAL | HIGH | CRITICAL
deriving DecidableEq

/-- Numeric value of a priority, as assigned by the enum in the source
(`LOW = 0, NORMAL = 1, HIGH = 2, CRITICAL = 3`). -/
def JobPriority.val : JobPriority → Nat
  | .LOW => 0
  | .NORMAL => 1
  | .HIGH => 2
  | .CRITICAL => 3

/-- A scheduled job (`Job` in `include/job_scheduler.h`); only the fields
read by `operator<` and the id are modelled, `scheduled_at` as a numeric
time point. -/
structure Job where
  job_id : Nat
  priority : JobPriority
  scheduled_at : Nat
deriving DecidableEq

/-- Model of `Job::operator<`: compare priorities first, and on equal
priority order by later `scheduled_at` (so that in a max-heap the earliest
scheduled job is on top). -/
def Job.lt (a b : Job) : Bool :=
  if a.priority ≠ b.priority then
    decide (a.priority.val < b.priority.val)
  else
    decide (b.scheduled_at < a.scheduled_at)

/-- An element of the scheduler's queue as the program stores it: a
`std::shared_ptr<Job>`, modelled by the address of the allocation that the
pointer holds together with the `Job` it points to. -/
structure JobPtr where
  addr : Nat
  job : Job
deriving DecidableEq

/-- The comparator the queue is actually instantiated with: `job_queue` is
declared `std::priority_queue<std::shared_ptr<Job>>` (job_scheduler.h), so
the default `std::less<std::shared_ptr<Job>>` applies, and it compares the
stored pointers -- the allocation addresses. `Job::operator<` is never
consulted by the queue. -/
def sharedPtrLt (a b : JobPtr) : Bool :=
  decide (a.addr < b.addr)

/-- Model of `job_queue.top()` over the queue's elements: a maximal
element with respect to the comparator the queue was declared with,
`sharedPtrLt` (the heap guarantees exactly that the top is maximal for its
instantiated comparator; this fold keeps the earliest pushed among
equals). -/
def jobQueueTop : List JobPtr → Option JobPtr
  | [] => none
  | j :: rest => some (rest.foldl (fun acc x => if sharedPtrLt acc x then x else acc) j)

/-- Right rotation of a 32-bit word. -/
def rotr32 (n x : Nat) : Nat :=
  ((x >>> n) ||| (x <<< (32 - n))) % 2 ^ 32

/-- SHA-256 round constants (FIPS 180-4, section 4.2.2). -/
def sha256K : List Nat :=
  [1116352408, 1899447441, 3049323471, 3921009573,
   961987163, 1508970993, 2453635748, 2870763221,
   3624381080, 310598401, 607225278, 1426881987,
   1925078388, 2162078206, 2614888103, 3248222580,
   3835390401, 4022224774, 264347078, 604807628,
   770255983, 1249150122, 1555081692, 1996064986,
   2554220882, 2821834349, 2952996808, 3210313671,
   3336571891, 3584528711, 113926993, 338241895,
   666307205, 773529912, 1294757372, 1396182291,
   1695183700, 1986661051, 2177026350, 2456956037,
   2730485921, 2820302411, 3259730800, 3345764771,
   3516065817, 3600352804, 4094571909, 275423344,
   430227734, 506948616, 659060556, 883997877,
   958139571, 1322822218, 1537002063, 1747873779,
   1955562222, 2024104815, 2227730452, 2361852424,
   2428436474, 2756734187, 3204031479, 3329325298]

/-- SHA-256 initial hash value (FIPS 180-4, section 5.3.3). -/
def sha256H0 : List Nat :=
  [1779033703, 3144134277, 1013904242, 2773480762,
   1359893119, 2600822924, 528734635, 1541459225]

/-- Group a padded byte stream into big-endian 32-bit words. -/
def bytesToWords32 : List Nat → List Nat
  | b0 :: b1 :: b2 :: b3 :: rest =>
    (b0 % 256 * 2 ^ 24 + b1 % 256 * 2 ^ 16 + b2 % 256 * 2 ^ 8 + b3 % 256) :: bytesToWords32 rest
  | _ => []

/-- Extend 16 message words to 64 schedule words; `fuel` counts the words
still to produce, `acc` holds the words so far in reverse order. -/
def sha256Extend (fuel : Nat) (acc : List Nat) : List Nat :=
  match fuel with
  | 0 => acc.reverse
  | f + 1 =>
    let w15 := acc.getD 14 0
    let w2 := acc.getD 1 0
    let s0 := rotr32 7 w15 ^^^ rotr32 18 w15 ^^^ (w15 >>> 3)
    let s1 := rotr32 17 w2 ^^^ rotr32 19 w2 ^^^ (w2 >>> 10)
    let w := (acc.getD 15 0 + s0 + acc.getD 6 0 + s1) % 2 ^ 32
    sha256Extend f (w :: acc)

/-- One SHA-256 round, updating the working variables `(a,b,c,d,e,f,g,h)`
with the round constant and schedule word `kw`. -/
def sha256Round (st : List Nat) (kw : Nat × Nat) : List Nat :=
  let a := st.getD 0 0
  let b := st.getD 1 0
  let c := st.getD 2 0
  let d := st.getD 3 0
  let e := st.getD 4 0
  let f := st.getD 5 0
  let g := st.getD 6 0
  let h := st.getD 7 0
  let s1 := rotr32 6 e ^^^ rotr32 11 e ^^^ rotr32 25 e
  let ch := (e &&& f) ^^^ ((2 ^ 32 - 1 - e) &&& g)
  let t1 := (h + s1 + ch + kw.1 + kw.2) % 2 ^ 32
  let s0 := rotr32 2 a ^^^ rotr32 13 a ^^^ rotr32 22 a
  let maj := (a &&& b) ^^^ (a &&& c) ^^^ (b &&& c)
  let t2 := (s0 + maj) % 2 ^ 32
  [(t1 + t2) % 2 ^ 32, a, b, c, (d + t1) % 2 ^ 32, e, f, g]

/-- Compress one 64-byte block into the running hash state. -/
def sha256Compress (hs : List Nat) (block : List Nat) : List Nat :=
  let w16 := bytesToWords32 block
  let ws := sha256Extend 48 w16.reverse
  let st := (sha256K.zip ws).foldl sha256Round hs
  (hs.zip st).map (fun p => (p.1 + p.2) % 2 ^ 32)

/-- Split a byte stream into 64-byte blocks; the fuel argument (any bound
on the number of blocks, here the byte length) keeps the recursion
structural so that digests evaluate by kernel reduction. -/
def blocks64Go : Nat → List Nat → List (List Nat)
  | 0, bs => [bs]
  | fuel + 1, bs =>
    if bs.length ≤ 64 then [bs]
    else bs.take 64 :: blocks64Go fuel (bs.drop 64)

/-- Split a byte stream into 64-byte blocks. -/
def blocks64 (bs : List Nat) : List (List Nat) :=
  blocks64Go bs.length bs

/-- SHA-256 padding: append `0x80`, zero bytes to reach 56 mod 64, then the
bit length as a big-endian 64-bit integer. -/
def sha256Pad (msg : List Nat) : List Nat :=
  let padZeros := (119 - msg.length % 64) % 64
  let bitLen := msg.length * 8
  msg ++ [0x80] ++ List.replicate padZeros 0 ++
    [bitLen / 2 ^ 56 % 256, bitLen / 2 ^ 48 % 256, bitLen / 2 ^ 40 % 256,
     bitLen / 2 ^ 32 % 256, bitLen / 2 ^ 24 % 256, bitLen / 2 ^ 16 % 256,
     bitLen / 2 ^ 8 % 256, bitLen % 256]

/-- The SHA-256 digest of a byte stream, as eight 32-bit words. -/
def sha256Words (msg : List Nat) : List Nat :=
  (blocks64 (sha256Pad msg)).foldl sha256Compress sha256H0

/-- Lower-case hexadecimal digit. -/
def hexDigitChar (n : Nat) : Char :=
  if n < 10 then Char.ofNat (48 + n) else Char.ofNat (87 + n)

/-- Lower-case hexadecimal rendering of a 32-bit word, 8 digits. -/
def word32Hex (w : Nat) : List Char :=
  [hexDigitChar (w / 2 ^ 28 % 16), hexDigitChar (w / 2 ^ 24 % 16),
   hexDigitChar (w / 2 ^ 20 % 16), hexDigitChar (w / 2 ^ 16 % 16),
   hexDigitChar (w / 2 ^ 12 % 16), hexDigitChar (w / 2 ^ 8 % 16),
   hexDigitChar (w / 2 ^ 4 % 16), hexDigitChar (w % 16)]

/-- Modelled from the spec: "Pure function from a byte sequence to a
32-byte SHA-256 digest, rendered as lower-case hex for use as map keys."
This is SHA-256 per FIPS 180-4; the repository's `ContentHash::computeHash`
does not implement it (it uses `std::hash`), so the spec side of claim C3
is defined here from the specification's words. -/
def sha256HexLower (msg : List Nat) : String :=
  String.mk ((sha256Words msg).map word32Hex).flatten

/-- Little-endian bytes of a `uint16_t` child page id, as the
specification's canonical serialisation (section 4.2) prescribes. -/
def childLEBytes (c : Nat) : List Nat :=
  [c % 256, c / 256 % 256]

/-- Modelled from the spec: the canonical byte image of claim C3 — "keys
and data, and for internal pages also the children sequence". -/
def specCanonicalImage (p : Page) : List Nat :=
  (p.keys.map intLEBytes).flatten ++ p.data ++
    (if p.is_leaf then [] else (p.children.map childLEBytes).flatten)

/-- Content hash as the specification describes it for claim C3: SHA-256
over the canonical image, rendered as lower-case hex. -/
def specContentHash (p : Page) : String :=
  sha256HexLower (specCanonicalImage p)

/-- In-bounds element swap on a list, modelling `std::swap(l[i], l[j])`
(within the source both indices are always in range). -/
def listSwap (l : List Nat) (i j : Nat) : List Nat :=
  let a := l.getD i 0
  let b := l.getD j 0
  (l.set i b).set j a

/-- Byte-wise swap of two `count`-byte regions of `data` starting at `o1`
and `o2`, modelling the inner loop of the leaf case of
`BTree::insertNonFull` (`for (k = 0; k < value_size; ++k) std::swap(...)`);
the iteration order is immaterial because the positions are disjoint, so
the recursion counts down. -/
def swapBytes (data : List Nat) (o1 o2 : Nat) : Nat → List Nat
  | 0 => data
  | m + 1 => swapBytes (listSwap data (o1 + m) (o2 + m)) o1 o2 m

/-- The sort-down loop of the leaf case of `BTree::insertNonFull`
(`src/Btree.cpp`, lines 90-101): starting from position `j`, while the key
at `j` is smaller than its left neighbour, swap the two keys and their
4-byte value blocks and step left. -/
def bubbleStep (keys data : List Nat) : Nat → List Nat × List Nat
  | 0 => (keys, data)
  | j + 1 =>
    if keys.getD (j + 1) 0 < keys.getD j 0 then
      bubbleStep (listSwap keys (j + 1) j)
        (swapBytes data ((j + 1) * valueSize) (j * valueSize) valueSize) j
    else
      (keys, data)

/-- Leaf case of `BTree::insertNonFull` (`src/Btree.cpp`, lines 77-105),
before the store: push the key, append the serialised value, and sort both
down into place. -/
def BTree.insertNonFullLeaf (p : Page) (k v : Nat) : Page :=
  let keys1 := p.keys ++ [k]
  let data1 := p.data ++ intLEBytes v
  let kd := bubbleStep keys1 data1 (keys1.length - 1)
  { p with keys := kd.1, data := kd.2 }

/-- The full leaf insert step of `BTree::insertNonFull`: modify the page,
store the modified page in content storage, and update the in-memory
page's id to the id the store returned. -/
def BTree.leafInsertStored (s : ContentStorage) (p : Page) (k v : Nat) :
    ContentStorage × Page :=
  let p2 := BTree.insertNonFullLeaf p k v
  let r := ContentStorage.storePage s p2
  (r.2, { p2 with header := { p2.header with page_id := r.1 } })

/-- Leaf case of `BTree::deleteFromNode` (`src/Btree.cpp`, lines 184-204)
applied to the root, threading content storage: scan for the first key not
less than `k`; if it equals `k`, erase it and its 4-byte value block and
store the page, otherwise return unchanged. -/
def BTree.deleteStep (st : ContentStorage × Page) (k : Nat) : ContentStorage × Page :=
  let p := st.2
  let idx := p.keys.findIdx (fun x => decide (k ≤ x))
  if idx < p.keys.length ∧ p.keys.getD idx 0 = k then
    let p2 := { p with
      keys := p.keys.eraseIdx idx,
      data := p.data.take (idx * valueSize) ++ p.data.drop (idx * valueSize + valueSize) }
    let r := ContentStorage.storePage st.1 p2
    (r.2, { p2 with header := { p2.header with page_id := r.1 } })
  else
    st

/-- The value scan of `BTree::search` (`src/Btree.cpp`, lines 358-369) over
the keys of the found leaf: return the first slot whose key matches and
whose 4-byte block lies within `data`, deserialised; continue scanning on a
failed bounds check, and report `none` (the null pointer) after the loop. -/
def BTree.searchScan (data : List Nat) (k : Nat) : List Nat → Nat → Option Nat
  | [], _ => none
  | x :: rest, i =>
    if x = k ∧ i * valueSize + valueSize ≤ data.length then
      some (deserializeValue ((data.drop (i * valueSize)).take valueSize))
    else
      BTree.searchScan data k rest (i + 1)

/-- Model of `BTree::search` on a tree whose root is a leaf: `findKey`
(`src/Btree.cpp`, lines 42-53) stops in its leaf branch — the index scan
finds the first key not less than `k` and throws unless it equals `k`, the
exception being caught by `search` as `none` — and then `search` scans the
leaf for the value. -/
def BTree.searchLeafRoot (st : ContentStorage × Page) (k : Nat) : Option Nat :=
  let p := st.2
  let idx := p.keys.findIdx (fun x => decide (k ≤ x))
  if idx < p.keys.length ∧ p.keys.getD idx 0 = k then
    BTree.searchScan p.data k p.keys 0
  else
    none

/-- One tree operation of a client run: `insert(k, v)` or `deleteKey(k)`. -/
inductive TreeOp
  | insOp : Nat → Nat → TreeOp
  | delOp : Nat → TreeOp
deriving DecidableEq

/-- One `BTree::insert` call (`src/Btree.cpp`, lines 21-38) in the
leaf-root fragment: when the root holds `maxKeysPerNode` keys the source
enters the root-split path, which leaves the single-leaf fragment, so the
result is `none`; otherwise the insert is `insertNonFull` on the leaf
root. -/
def BTree.insertStep (maxKeysPerNode : Nat) (st : ContentStorage × Page) (k v : Nat) :
    Option (ContentStorage × Page) :=
  if st.2.keys.length = maxKeysPerNode then
    none
  else
    some (BTree.leafInsertStored st.1 st.2 k v)

/-- Apply one tree operation; `deleteKey` on a leaf root is the leaf branch
of `deleteFromNode` (the root-replacement check at the end of `deleteKey`
does not fire because the root is a leaf). -/
def BTree.applyOp (maxKeysPerNode : Nat) (st : ContentStorage × Page) :
    TreeOp → Option (ContentStorage × Page)
  | .insOp k v => BTree.insertStep maxKeysPerNode st k v
  | .delOp k => some (BTree.deleteStep st k)

/-- Run a sequence of tree operations from a given state. -/
def BTree.runOps (maxKeysPerNode : Nat) (st : ContentStorage × Page) :
    List TreeOp → Option (ContentStorage × Page)
  | [] => some st
  | op :: rest =>
    match BTree.applyOp maxKeysPerNode st op with
    | none => none
    | some st2 => BTree.runOps maxKeysPerNode st2 rest

/-- The state built by the `BTree` constructor (`src/Btree.cpp`, lines
8-15): store a fresh leaf page and make the root a copy of the stored
page. -/
def BTree.initState : ContentStorage × Page :=
  let r := ContentStorage.storePage emptyStorage (createPage true)
  match ContentStorage.getPage r.2 r.1 with
  | some p => (r.2, p)
  | none => (r.2, createPage true)

/-- Admissibility of a run for the amended claim C1, as an executable
check: every insert happens with room in the leaf, a key not currently
present, and a value that fits in 32 bits. -/
def BTree.admissibleB (maxKeysPerNode : Nat) (st : ContentStorage × Page) :
    List TreeOp → Bool
  | [] => true
  | .insOp k v :: rest =>
    decide (st.2.keys.length < maxKeysPerNode) && decide (k ∉ st.2.keys) &&
      decide (v < 2 ^ 32) &&
      BTree.admissibleB maxKeysPerNode (BTree.leafInsertStored st.1 st.2 k v) rest
  | .delOp k :: rest =>
    BTree.admissibleB maxKeysPerNode (BTree.deleteStep st k) rest

/-- Model of `BTree::splitChild` (`src/Btree.cpp`, lines 131-159): move the
upper half of the full child into a fresh sibling, store both, and record
the new sibling id and the promoted key in the parent.  The promoted key is
written in the source as `child->keys[mid]` after `child->keys.resize(mid)`
— an out-of-bounds read under the C++ standard; on the libstdc++ build the
Makefile uses, the shrinking `resize` keeps the buffer, so the read yields
the original element at index `mid`, and the model therefore reads the
median from the child's keys as they were on entry.  Returns the updated
storage, the updated parent and the updated left child. -/
def BTree.splitChild (maxKeysPerNode : Nat) (s : ContentStorage) (parent : Page)
    (index : Nat) (child : Page) : ContentStorage × Page × Page :=
  let mid := maxKeysPerNode / 2
  let new_child0 := { createPage child.is_leaf with keys := child.keys.drop (mid + 1) }
  let halves :=
    if child.is_leaf then
      ({ new_child0 with data := child.data.drop ((mid + 1) * valueSize) },
       { child with keys := child.keys.take mid,
                    data := child.data.take ((mid + 1) * valueSize) })
    else
      ({ new_child0 with children := child.children.drop (mid + 1) },
       { child with keys := child.keys.take mid,
                    children := child.children.take (mid + 1) })
  let r1 := s.storePage halves.2
  let r2 := r1.2.storePage halves.1
  let parent2 := { parent with
    children := parent.children.insertIdx (index + 1) r2.1,
    keys := parent.keys.insertIdx index (child.keys.getD mid 0) }
  let child3 := { halves.2 with header := { halves.2.header with page_id := r1.1 } }
  (r2.2, parent2, child3)

/-- The root-full branch of `BTree::insert` (`src/Btree.cpp`, lines 26-29)
up to but not including the store of the new root: create an internal page
whose only child is the old root and split the old root into it.  Returns
the storage after the two child stores and the new root page value. -/
def BTree.newRootBeforeStore (maxKeysPerNode : Nat) (s : ContentStorage) (root : Page) :
    ContentStorage × Page :=
  let new_root0 := { createPage false with children := [root.header.page_id] }
  let r := BTree.splitChild maxKeysPerNode s new_root0 0 root
  (r.1, r.2.1)

/-- The complete root-full branch of `BTree::insert` (`src/Btree.cpp`,
lines 26-34): build and split as in `newRootBeforeStore`, store the new
root, and re-read it from content storage (the source dereferences the
returned pointer unconditionally; the `none` arm is unreachable right
after a store). -/
def BTree.insertRootSplit (maxKeysPerNode : Nat) (s : ContentStorage) (root : Page) :
    ContentStorage × Page :=
  let r := BTree.newRootBeforeStore maxKeysPerNode s root
  let r2 := r.1.storePage r.2
  match r2.2.getPage r2.1 with
  | some p => (r2.2, p)
  | none => (r2.2, r.2)

/-- An entry of the abstract view of a leaf page: a key paired with its
4-byte value block.  Used only by the proofs, to relate the flat
`keys`/`data` representation of the source to a list of pairs. -/
abbrev LeafEntry := Nat × List Nat

/-- Keys of an abstract leaf view. -/
def entriesKeys (m : List LeafEntry) : List Nat :=
  m.map Prod.fst

/-- Flat data buffer of an abstract leaf view. -/
def entriesData (m : List LeafEntry) : List Nat :=
  (m.map Prod.snd).flatten

/-- Element swap on the abstract view, mirroring `listSwap`. -/
def swapPair (l : List LeafEntry) (i j : Nat) : List LeafEntry :=
  let a := l.getD i (0, [])
  let b := l.getD j (0, [])
  (l.set i b).set j a

/-- The bubble loop on the abstract view: identical control flow to
`bubbleStep`, but swapping whole entries. -/
def bubblePair (l : List LeafEntry) : Nat → List LeafEntry
  | 0 => l
  | j + 1 =>
    if (l.getD (j + 1) (0, [])).1 < (l.getD j (0, [])).1 then
      bubblePair (swapPair l (j + 1) j) j
    else
      l

/-- Relation between a leaf page and its abstract view: the page is a leaf
whose keys are the entry keys and whose data is the concatenation of the
entry blocks, each block 4 bytes. -/
def ReprLeaf (p : Page) (m : List LeafEntry) : Prop :=
  p.is_leaf = true ∧ p.keys = entriesKeys m ∧ p.data = entriesData m ∧
    ∀ e ∈ m, e.2.length = valueSize

/-- Well-formedness of an abstract leaf view for the amended claim C1:
strictly ascending keys and every block the serialisation of a 32-bit
value. -/
def GoodEntries (m : List LeafEntry) : Prop :=
  (entriesKeys m).Sorted (· < ·) ∧ ∀ e ∈ m, ∃ w, w < 2 ^ 32 ∧ e.2 = intLEBytes w

/-- A concrete leaf page with one key, used by witnesses. -/
def pageEx1 : Page :=
  { createPage true with keys := [1], data := intLEBytes 10 }

/-- A concrete internal page whose only child is page 1 (same keys and data
as `pageExInternalB`). -/
def pageExInternalA : Page :=
  { createPage false with children := [1] }

/-- A concrete internal page whose only child is page 2 (same keys and data
as `pageExInternalA`). -/
def pageExInternalB : Page :=
  { createPage false with children := [2] }

/-- A concrete WAL state whose log holds three records with LSNs 1, 2, 3. -/
def walEx : WALManager :=
  { wal_file :=
      [ { type := .INSERT, record_size := 60, transaction_id := 1, lsn := 1, checksum := 7 },
        { type := .INSERT, record_size := 60, transaction_id := 1, lsn := 2, checksum := 8 },
        { type := .COMMIT, record_size := 33, transaction_id := 1, lsn := 3, checksum := 9 } ],
    next_lsn := 4, next_transaction_id := 2, last_checkpoint_lsn := 0 }

/-- The NORMAL-priority job of the scheduler scenario, scheduled at
instant 100. -/
def jobExA : Job :=
  { job_id := 1, priority := .NORMAL, scheduled_at := 100 }

/-- The HIGH-priority job of the scheduler scenario, scheduled at the same
instant 100. -/
def jobExB : Job :=
  { job_id := 2, priority := .HIGH, scheduled_at := 100 }

/-- The NORMAL-priority job boxed in a `shared_ptr` whose allocation landed
at address 200. -/
def jobPtrExA : JobPtr :=
  { addr := 200, job := jobExA }

/-- The HIGH-priority job boxed in a `shared_ptr` whose allocation landed
at the lower address 100. -/
def jobPtrExB : JobPtr :=
  { addr := 100, job := jobExB }

/-- A concrete writer system whose queue is at its capacity of one request
and whose cache holds page 1 dirty. -/
def writerSysEx : WriterSystem :=
  { wq := { write_queue := [(1, pageEx1)], max_queue_size := 1 },
    page_cache := { cache := [(1, { page := pageEx1, is_dirty := true })],
                    max_cache_size := 50 } }

/-- A concrete full leaf root for the split scenario: `M = 3` keys with
their three serialised values. -/
def fullRootEx : Page :=
  { createPage true with
      header := { (createPage true).header with page_id := 1 },
      keys := [1, 2, 3],
      data := intLEBytes 10 ++ intLEBytes 20 ++ intLEBytes 30 }

/-- Run of claim C1's counterexample: the same key inserted twice with
different values. -/
def opsExDup : List TreeOp :=
  [.insOp 1 10, .insOp 1 20]

/-- Run of claim C4's counterexample: key 5 inserted twice. -/
def opsExDup5 : List TreeOp :=
  [.insOp 5 1, .insOp 5 2]

/-- Run used by the witnesses of the amended claims C1 and C4: two distinct
keys inserted out of order. -/
def opsExGood : List TreeOp :=
  [.insOp 2 20, .insOp 1 10]

/-- C6.  The claim says `truncate(up_to_lsn)` removes the log prefix of
records with `lsn < up_to_lsn`.  The body of `WALManager::truncate` only
prints a message: on any state it is the identity, and on the concrete log
with LSNs 1, 2, 3 the two records below LSN 3 are still present after
`truncate(3)`. -/
theorem truncate_is_noop_and_retains_prefix :
    (∀ (w : WALManager) (n : Nat), WALManager.truncate w n = w) ∧
      WALManager.truncate walEx 3 = walEx ∧
      (walEx.wal_file.filter (fun r => decide (r.lsn < 3))).length = 2 := by
  refine ⟨fun w n => rfl, rfl, ?_⟩
  decide

/-- C9.  The claim says the scheduler dequeues jobs by priority (`LOW <
NORMAL < HIGH < CRITICAL`, highest first) and, among equal priorities, by
earliest `scheduled_at`, per the comparator at the cited lines.  But
`job_queue` is declared `std::priority_queue<std::shared_ptr<Job>>` with
the default comparator, which orders by the pointer addresses the
`shared_ptr`s hold and never calls `Job::operator<`: when the HIGH job's
allocation lands at the lower address, the queue's top is the NORMAL job
in either push order, even though `Job::operator<` ranks the NORMAL job
strictly below the HIGH one, so the claimed dequeue order is not what the
program implements. -/
theorem jobQueue_pointer_order_ignores_priority :
    jobQueueTop [jobPtrExA, jobPtrExB] = some jobPtrExA ∧
      jobQueueTop [jobPtrExB, jobPtrExA] = some jobPtrExA ∧
      jobPtrExA.job.priority = JobPriority.NORMAL ∧
      jobPtrExB.job.priority = JobPriority.HIGH ∧
      Job.lt jobPtrExA.job jobPtrExB.job = true := by
  decide

/-- C7.  When the writer queue already holds `max_queue_size` pending
requests, `enqueueWrite` reports failure, leaves the queue unchanged, and
does not touch the page cache, so the page's dirty bit is exactly what it
was (in particular it remains set). -/
theorem enqueueWrite_full_backpressure (sys : WriterSystem) (page_id : Nat) (page : Page)
    (h : sys.wq.write_queue.length = sys.wq.max_queue_size) :
    (WriterQueue.enqueueWrite sys page_id page).1 = false ∧
      (WriterQueue.enqueueWrite sys page_id page).2 = sys ∧
      PageCache.isDirty (WriterQueue.enqueueWrite sys page_id page).2.page_cache page_id
        = PageCache.isDirty sys.page_cache page_id := by
  have hfull : sys.wq.write_queue.length ≥ sys.wq.max_queue_size := Nat.le_of_eq h.symm
  unfold WriterQueue.enqueueWrite
  rw [if_pos hfull]
  exact ⟨rfl, rfl, rfl⟩

/-- Witness for C7: the concrete writer system at capacity with page 1
dirty; enqueueing is refused and page 1 stays dirty. -/
theorem enqueueWrite_full_backpressure_witness :
    writerSysEx.wq.write_queue.length = writerSysEx.wq.max_queue_size ∧
      (WriterQueue.enqueueWrite writerSysEx 1 pageEx1).1 = false ∧
      PageCache.isDirty (WriterQueue.enqueueWrite writerSysEx 1 pageEx1).2.page_cache 1 = true :=
  ⟨by decide,
   (enqueueWrite_full_backpressure writerSysEx 1 pageEx1 (by decide)).1,
   by
    have h := (enqueueWrite_full_backpressure writerSysEx 1 pageEx1 (by decide)).2.2
    rw [h]
    decide⟩

/-- C10.  On a dedup hit — the page's content hash is already a key of
`content_map` — `storePage` returns with the entire store state unchanged:
`content_map`, `page_to_hash` and `next_page_id` are exactly as before the
call.  (The call also never mutates the caller's page: the source hashes a
local copy, which the embedding reflects by taking the page by value.) -/
theorem storePage_dedup_hit_frame (s : ContentStorage) (p : Page)
    (h : (lookupKV (Page.updateContentHash p).getContentHash s.content_map).isSome = true) :
    (ContentStorage.storePage s p).2.content_map = s.content_map ∧
      (ContentStorage.storePage s p).2.page_to_hash = s.page_to_hash ∧
      (ContentStorage.storePage s p).2.next_page_id = s.next_page_id := by
  rcases hl : lookupKV (Page.updateContentHash p).getContentHash s.content_map with _ | q
  · rw [hl] at h; cases h
  · have hl2 : lookupKV (ContentHash.computeHash (pageContentBytes p)) s.content_map = some q := by
      simpa [Page.updateContentHash, Page.getContentHash] using hl
    simp only [ContentStorage.storePage, Page.getContentHash, Page.updateContentHash, hl2]
    exact ⟨trivial, trivial, trivial⟩

/-- Witness for C10: store a page into the empty store, then observe that a
second store of the same page finds its hash present and leaves all three
state components untouched. -/
theorem storePage_dedup_hit_frame_witness :
    (lookupKV (Page.updateContentHash pageEx1).getContentHash
        (ContentStorage.storePage emptyStorage pageEx1).2.content_map).isSome = true ∧
      (ContentStorage.storePage (ContentStorage.storePage emptyStorage pageEx1).2 pageEx1).2.content_map
        = (ContentStorage.storePage emptyStorage pageEx1).2.content_map :=
  ⟨by decide,
   (storePage_dedup_hit_frame (ContentStorage.storePage emptyStorage pageEx1).2 pageEx1
      (by decide)).1⟩

/-- Helper: `storePage` on a dedup hit returns the stored page's id and the
unchanged store. -/
theorem storePage_hit (s : ContentStorage) (p : Page) (r : Page)
    (hl : lookupKV (ContentHash.computeHash (pageContentBytes p)) s.content_map = some r) :
    ContentStorage.storePage s p = (r.header.page_id, s) := by
  simp only [ContentStorage.storePage, Page.getContentHash, Page.updateContentHash, hl]

/-- Helper: `storePage` on a miss allocates `next_page_id` and prepends the
page to both maps. -/
theorem storePage_miss (s : ContentStorage) (p : Page)
    (hl : lookupKV (ContentHash.computeHash (pageContentBytes p)) s.content_map = none) :
    ContentStorage.storePage s p =
      (s.next_page_id,
        { content_map := (ContentHash.computeHash (pageContentBytes p),
            { Page.updateContentHash p with
                header := { (Page.updateContentHash p).header with
                  page_id := s.next_page_id } }) :: s.content_map,
          page_to_hash := (s.next_page_id,
            ContentHash.computeHash (pageContentBytes p)) :: s.page_to_hash,
          next_page_id := s.next_page_id + 1 }) := by
  simp only [ContentStorage.storePage, Page.getContentHash, Page.updateContentHash, hl]

/-- C2.  Storing two pages with the same canonical content one after the
other returns the same page id, and the second store changes nothing: the
content hash is already present after the first store, so the existing id
is returned instead of allocating a new one. -/
theorem storePage_dedup_same_id (s : ContentStorage) (p q : Page)
    (h : pageContentBytes p = pageContentBytes q) :
    (ContentStorage.storePage (ContentStorage.storePage s p).2 q).1
        = (ContentStorage.storePage s p).1 ∧
      (ContentStorage.storePage (ContentStorage.storePage s p).2 q).2
        = (ContentStorage.storePage s p).2 := by
  have hh : ContentHash.computeHash (pageContentBytes q)
      = ContentHash.computeHash (pageContentBytes p) := by rw [h]
  rcases hl : lookupKV (ContentHash.computeHash (pageContentBytes p)) s.content_map with _ | r
  · have h1 := storePage_miss s p hl
    have hl2 : lookupKV (ContentHash.computeHash (pageContentBytes q))
        (ContentStorage.storePage s p).2.content_map
        = some { Page.updateContentHash p with
            header := { (Page.updateContentHash p).header with
              page_id := s.next_page_id } } := by
      rw [h1, hh]
      simp [lookupKV]
    have h2 := storePage_hit (ContentStorage.storePage s p).2 q _ hl2
    rw [h2, h1]
    exact ⟨rfl, rfl⟩
  · have h1 := storePage_hit s p r hl
    have h2 := storePage_hit (ContentStorage.storePage s p).2 q r (by rw [h1, hh]; exact hl)
    rw [h2, h1]
    exact ⟨rfl, rfl⟩

/-- Witness for C2: storing the same concrete page twice into the empty
store returns the same page id both times. -/
theorem storePage_dedup_same_id_witness :
    pageContentBytes pageEx1 = pageContentBytes pageEx1 ∧
      (ContentStorage.storePage (ContentStorage.storePage emptyStorage pageEx1).2 pageEx1).1
        = (ContentStorage.storePage emptyStorage pageEx1).1 :=
  ⟨rfl, (storePage_dedup_same_id emptyStorage pageEx1 pageEx1 rfl).1⟩

/-- Helper: every entry left in the cache after the `flushAll` walk has its
dirty bit cleared. -/
theorem flushEntries_result_clean (l : List (Nat × CacheEntry)) (s : ContentStorage) :
    ∀ e ∈ (flushEntries l s).1, e.2.is_dirty = false := by
  induction l generalizing s with
  | nil => intro e he; cases he
  | cons x rest ih =>
    obtain ⟨pid, entry⟩ := x
    intro e he
    by_cases hd : entry.is_dirty = true
    · simp only [flushEntries, hd, if_true] at he
      rcases List.mem_cons.mp he with he | he
      · rw [he]
      · exact ih _ e he
    · simp only [flushEntries, hd, if_false] at he
      rcases List.mem_cons.mp he with he | he
      · rw [he]; exact Bool.eq_false_iff.mpr hd
      · exact ih _ e he

/-- Helper: the `flushAll` walk over a cache with no dirty entries changes
nothing and counts zero writes. -/
theorem flushEntries_clean_id (l : List (Nat × CacheEntry)) (s : ContentStorage)
    (h : ∀ e ∈ l, e.2.is_dirty = false) : flushEntries l s = (l, s, 0) := by
  induction l generalizing s with
  | nil => rfl
  | cons x rest ih =>
    obtain ⟨pid, entry⟩ := x
    have hx : entry.is_dirty = false := h (pid, entry) (List.mem_cons_self _ _)
    simp only [flushEntries, hx, Bool.false_eq_true, if_false]
    rw [ih s (fun e he => h e (List.mem_cons_of_mem _ he))]

/-- C8.  `flushAll` is idempotent: after one call every cache entry is
clean, so a second call with no intervening mutations leaves the cache and
the content store exactly as they were and writes back zero pages. -/
theorem flushAll_idempotent (c : PageCache) (s : ContentStorage) :
    PageCache.flushAll (PageCache.flushAll c s).1 (PageCache.flushAll c s).2.1
      = ((PageCache.flushAll c s).1, (PageCache.flushAll c s).2.1, 0) := by
  show PageCache.flushAll { c with cache := (flushEntries c.cache s).1 } (flushEntries c.cache s).2.1
      = _
  unfold PageCache.flushAll
  rw [flushEntries_clean_id _ _ (flushEntries_result_clean c.cache s)]

set_option maxRecDepth 40000 in
/-- C3 counterexample.  The content hash computed by `updateContentHash` is
not the lower-case-hex SHA-256 of the specification's canonical image: two
internal pages that differ only in their children sequence receive the same
content hash from the code, while the spec's digests of their (distinct)
canonical images differ. -/
theorem contentHash_not_sha256_of_spec_image :
    ¬ ∀ p : Page, (Page.updateContentHash p).header.content_hash = specContentHash p := by
  intro hall
  have h1 := hall pageExInternalA
  have h2 := hall pageExInternalB
  have he : (Page.updateContentHash pageExInternalA).header.content_hash
      = (Page.updateContentHash pageExInternalB).header.content_hash := rfl
  rw [h1, h2] at he
  exact absurd he (by decide)

/-- C3 amended.  The content hash is `ContentHash::computeHash` — the
decimal rendering of a 64-bit `std::hash`, not a SHA-256 hex digest — over
the byte image of keys followed by data only; the children sequence never
enters the image, even for internal pages. -/
theorem updateContentHash_is_computeHash_of_keys_data (p : Page) (cs : List Nat) :
    (Page.updateContentHash p).header.content_hash
        = ContentHash.computeHash ((p.keys.map intLEBytes).flatten ++ p.data) ∧
      (Page.updateContentHash { p with children := cs }).header.content_hash
        = (Page.updateContentHash p).header.content_hash :=
  ⟨rfl, rfl⟩

/-- Helper: reading back the page id returned by a non-dedup store yields
the page just stored. -/
theorem getPage_after_miss_store (s : ContentStorage) (p : Page)
    (hl : lookupKV (ContentHash.computeHash (pageContentBytes p)) s.content_map = none) :
    ContentStorage.getPage (ContentStorage.storePage s p).2 (ContentStorage.storePage s p).1
      = some { Page.updateContentHash p with
          header := { (Page.updateContentHash p).header with page_id := s.next_page_id } } := by
  rw [storePage_miss s p hl]
  simp [ContentStorage.getPage, lookupKV]

/-- Helper: the new root built by the root-full branch of `BTree::insert`
is internal, carries exactly the promoted median key, and points at the old
root and the freshly stored sibling. -/
theorem newRootBeforeStore_shape (maxKeysPerNode : Nat) (s : ContentStorage) (root : Page) :
    (BTree.newRootBeforeStore maxKeysPerNode s root).2.is_leaf = false ∧
      (BTree.newRootBeforeStore maxKeysPerNode s root).2.keys
        = [root.keys.getD (maxKeysPerNode / 2) 0] ∧
      ∃ nid, (BTree.newRootBeforeStore maxKeysPerNode s root).2.children
        = [root.header.page_id, nid] := by
  unfold BTree.newRootBeforeStore BTree.splitChild
  by_cases hleaf : root.is_leaf = true
  · simp only [hleaf, if_true, createPage]
    refine ⟨by trivial, by exact rfl, ⟨_, by exact rfl⟩⟩
  · simp only [hleaf, if_false, createPage]
    refine ⟨by trivial, by exact rfl, ⟨_, by exact rfl⟩⟩

/-- C5.  When `insert` runs on a tree whose root holds exactly
`maxKeysPerNode` keys, the root split promotes exactly one key — the median
`keys[maxKeysPerNode / 2]` of the old root, a key of the old root — into
the new root, and the resulting new root is an internal page with exactly
two children (the old root and the freshly stored sibling).  The freshness
hypothesis states that the new root's content is not already in the store,
so that re-reading the stored new root returns the page just built rather
than a deduplicated older page. -/
theorem root_split_promotes_median_with_two_children (maxKeysPerNode : Nat)
    (s : ContentStorage) (root : Page)
    (hM : 0 < maxKeysPerNode) (hfull : root.keys.length = maxKeysPerNode)
    (hfresh : lookupKV
        (ContentHash.computeHash
          (pageContentBytes (BTree.newRootBeforeStore maxKeysPerNode s root).2))
        (BTree.newRootBeforeStore maxKeysPerNode s root).1.content_map = none) :
    (BTree.insertRootSplit maxKeysPerNode s root).2.is_leaf = false ∧
      (BTree.insertRootSplit maxKeysPerNode s root).2.keys
        = [root.keys.getD (maxKeysPerNode / 2) 0] ∧
      (BTree.insertRootSplit maxKeysPerNode s root).2.children.length = 2 ∧
      root.keys.getD (maxKeysPerNode / 2) 0 ∈ root.keys := by
  obtain ⟨hlf, hks, nid, hch⟩ := newRootBeforeStore_shape maxKeysPerNode s root
  have hget := getPage_after_miss_store (BTree.newRootBeforeStore maxKeysPerNode s root).1
    (BTree.newRootBeforeStore maxKeysPerNode s root).2 hfresh
  simp only [BTree.insertRootSplit]
  rw [hget]
  refine ⟨hlf, hks, ?_, ?_⟩
  · show (BTree.newRootBeforeStore maxKeysPerNode s root).2.children.length = 2
    rw [hch]
    rfl
  · have hlt : maxKeysPerNode / 2 < root.keys.length := by
      rw [hfull]
      exact Nat.div_lt_self hM (by norm_num)
    rw [List.getD_eq_getElem root.keys 0 hlt]
    exact List.getElem_mem hlt

/-- Witness for C5: splitting the concrete full root with keys 1, 2, 3 at
`maxKeysPerNode = 3` yields an internal root with the single key 2 (the
median) and two children. -/
theorem root_split_promotes_median_witness :
    (BTree.insertRootSplit 3 emptyStorage fullRootEx).2.is_leaf = false ∧
      (BTree.insertRootSplit 3 emptyStorage fullRootEx).2.keys = [2] ∧
      (BTree.insertRootSplit 3 emptyStorage fullRootEx).2.children.length = 2 :=
  have h := root_split_promotes_median_with_two_children 3 emptyStorage fullRootEx
    (by decide) (by decide) (by decide)
  ⟨h.1, by rw [h.2.1]; decide, h.2.2.1⟩

/-- Helper: `getD` at an offset past a prefix. -/
theorem getD_append_add {α : Type} (l r : List α) (i : Nat) (d : α) :
    (l ++ r).getD (l.length + i) d = r.getD i d := by
  have h : l.length + i - l.length = i := by omega
  rw [List.getD_append_right l r d _ (Nat.le_add_right _ _), h]

/-- Helper: `set` at an offset past a prefix. -/
theorem set_append_add {α : Type} (l r : List α) (i : Nat) (a : α) :
    (l ++ r).set (l.length + i) a = l ++ r.set i a := by
  have h : l.length + i - l.length = i := by omega
  rw [List.set_append_right _ _ (Nat.le_add_right _ _), h]

/-- Helper: writing at or past `m` does not change the first `m` elements. -/
theorem take_set_of_le {α : Type} (l : List α) (m i : Nat) (a : α) (h : m ≤ i) :
    (l.set i a).take m = l.take m := by
  induction l generalizing m i with
  | nil => rfl
  | cons x rest ih =>
    cases i with
    | zero =>
      have hm : m = 0 := Nat.le_zero.mp h
      rw [hm]
      rfl
    | succ i2 =>
      cases m with
      | zero => rfl
      | succ m2 =>
        simp only [List.set, List.take]
        rw [ih m2 i2 (Nat.le_of_succ_le_succ h)]

/-- Helper: dropping up to a freshly written position exposes the written
element followed by the old tail. -/
theorem drop_set_self {α : Type} (l : List α) (m : Nat) (a : α) (h : m < l.length) :
    (l.set m a).drop m = a :: l.drop (m + 1) := by
  rw [List.set_eq_take_cons_drop a h]
  have hlen : (l.take m).length = m := List.length_take_of_le (Nat.le_of_lt h)
  calc (l.take m ++ a :: l.drop (m + 1)).drop m
      = (l.take m ++ a :: l.drop (m + 1)).drop (l.take m).length := by rw [hlen]
    _ = a :: l.drop (m + 1) := List.drop_left _ _

/-- Helper: one more taken element, read with `getD`. -/
theorem take_succ_getD {α : Type} (l : List α) (m : Nat) (d : α) (h : m < l.length) :
    l.take (m + 1) = l.take m ++ [l.getD m d] := by
  induction l generalizing m with
  | nil => cases h
  | cons x rest ih =>
    cases m with
    | zero => rfl
    | succ m2 =>
      simp only [List.take, List.getD, List.cons_append, List.cons.injEq, true_and]
      exact ih m2 (Nat.lt_of_succ_lt_succ h)

/-- Helper: swapping the two middle elements of an explicit decomposition. -/
theorem listSwap_adjacent (pre : List Nat) (y x : Nat) (post : List Nat) :
    listSwap (pre ++ y :: x :: post) (pre.length + 1) pre.length
      = pre ++ x :: y :: post := by
  have hx : (pre ++ y :: x :: post).getD (pre.length + 1) 0 = x := by
    rw [getD_append_add]
    rfl
  have hy : (pre ++ y :: x :: post).getD pre.length 0 = y := by
    have h0 : pre.length = pre.length + 0 := rfl
    rw [h0, getD_append_add]
    rfl
  simp only [listSwap, hx, hy]
  have h1 : (pre ++ y :: x :: post).set (pre.length + 1) y = pre ++ y :: y :: post := by
    rw [set_append_add]
    rfl
  rw [h1]
  have h0 : pre.length = pre.length + 0 := rfl
  rw [h0, set_append_add]
  rfl

/-- Helper: the same adjacent swap on entry lists. -/
theorem swapPair_adjacent (pre : List LeafEntry) (y x : LeafEntry) (post : List LeafEntry) :
    swapPair (pre ++ y :: x :: post) (pre.length + 1) pre.length
      = pre ++ x :: y :: post := by
  have hx : (pre ++ y :: x :: post).getD (pre.length + 1) (0, []) = x := by
    rw [getD_append_add]
    rfl
  have hy : (pre ++ y :: x :: post).getD pre.length (0, []) = y := by
    have h0 : pre.length = pre.length + 0 := rfl
    rw [h0, getD_append_add]
    rfl
  simp only [swapPair, hx, hy]
  have h1 : (pre ++ y :: x :: post).set (pre.length + 1) y = pre ++ y :: y :: post := by
    rw [set_append_add]
    rfl
  rw [h1]
  have h0 : pre.length = pre.length + 0 := rfl
  rw [h0, set_append_add]
  rfl

/-- Helper: one byte swap between corresponding positions of two adjacent
equal-length blocks. -/
theorem listSwap_blocks (d1 yb xb d2 : List Nat) (n m : Nat)
    (hy : yb.length = n) (hx : xb.length = n) (hm : m < n) :
    listSwap (d1 ++ (yb ++ (xb ++ d2))) (d1.length + n + m) (d1.length + m)
      = d1 ++ (yb.set m (xb.getD m 0) ++ (xb.set m (yb.getD m 0) ++ d2)) := by
  have hmy : m < yb.length := by omega
  have hmx : m < xb.length := by omega
  have hgx : (d1 ++ (yb ++ (xb ++ d2))).getD (d1.length + n + m) 0 = xb.getD m 0 := by
    have harith : d1.length + n + m = d1.length + (yb.length + m) := by omega
    rw [harith, getD_append_add, getD_append_add]
    exact List.getD_append xb d2 0 m hmx
  have hgy : (d1 ++ (yb ++ (xb ++ d2))).getD (d1.length + m) 0 = yb.getD m 0 := by
    rw [getD_append_add]
    exact List.getD_append yb (xb ++ d2) 0 m hmy
  simp only [listSwap, hgx, hgy]
  have hs1 : (d1 ++ (yb ++ (xb ++ d2))).set (d1.length + n + m) (yb.getD m 0)
      = d1 ++ (yb ++ (xb.set m (yb.getD m 0) ++ d2)) := by
    have harith : d1.length + n + m = d1.length + (yb.length + m) := by omega
    rw [harith, set_append_add, set_append_add, List.set_append_left _ _ hmx]
  rw [hs1, set_append_add, List.set_append_left _ _ hmy]

/-- Helper: the byte-swap loop exchanges two adjacent equal-length blocks
wholesale; `m` counts the positions still to swap, the tail positions
having been swapped already. -/
theorem swapBytes_blocks_aux (n : Nat) : ∀ (m : Nat) (d1 yb xb d2 : List Nat),
    yb.length = n → xb.length = n → m ≤ n →
    swapBytes (d1 ++ (yb ++ (xb ++ d2))) (d1.length + n) d1.length m
      = d1 ++ ((xb.take m ++ yb.drop m) ++ ((yb.take m ++ xb.drop m) ++ d2)) := by
  intro m
  induction m with
  | zero =>
    intro d1 yb xb d2 hy hx hm
    simp [swapBytes]
  | succ m2 ih =>
    intro d1 yb xb d2 hy hx hm
    have hm2 : m2 < n := by omega
    show swapBytes (listSwap (d1 ++ (yb ++ (xb ++ d2))) (d1.length + n + m2) (d1.length + m2))
        (d1.length + n) d1.length m2 = _
    rw [listSwap_blocks d1 yb xb d2 n m2 hy hx hm2]
    rw [ih d1 (yb.set m2 (xb.getD m2 0)) (xb.set m2 (yb.getD m2 0)) d2
      (by rw [List.length_set]; exact hy) (by rw [List.length_set]; exact hx) (by omega)]
    have hty : (yb.set m2 (xb.getD m2 0)).take m2 = yb.take m2 :=
      take_set_of_le yb m2 m2 _ (Nat.le_refl m2)
    have htx : (xb.set m2 (yb.getD m2 0)).take m2 = xb.take m2 :=
      take_set_of_le xb m2 m2 _ (Nat.le_refl m2)
    have hdy : (yb.set m2 (xb.getD m2 0)).drop m2 = xb.getD m2 0 :: yb.drop (m2 + 1) :=
      drop_set_self yb m2 _ (by omega)
    have hdx : (xb.set m2 (yb.getD m2 0)).drop m2 = yb.getD m2 0 :: xb.drop (m2 + 1) :=
      drop_set_self xb m2 _ (by omega)
    have hys : yb.take (m2 + 1) = yb.take m2 ++ [yb.getD m2 0] :=
      take_succ_getD yb m2 0 (by omega)
    have hxs : xb.take (m2 + 1) = xb.take m2 ++ [xb.getD m2 0] :=
      take_succ_getD xb m2 0 (by omega)
    rw [hty, htx, hdy, hdx, hys, hxs]
    simp

/-- Helper: the byte-swap loop over two whole adjacent blocks exchanges
them. -/
theorem swapBytes_blocks (d1 yb xb d2 : List Nat) (n : Nat)
    (hy : yb.length = n) (hx : xb.length = n) :
    swapBytes (d1 ++ (yb ++ (xb ++ d2))) (d1.length + n) d1.length n
      = d1 ++ (xb ++ (yb ++ d2)) := by
  rw [swapBytes_blocks_aux n n d1 yb xb d2 hy hx (Nat.le_refl n)]
  rw [List.take_of_length_le (by omega), List.take_of_length_le (by omega),
    List.drop_of_length_le (by omega), List.drop_of_length_le (by omega)]
  simp

/-- Helper: keys of an appended view. -/
theorem entriesKeys_append (a b : List LeafEntry) :
    entriesKeys (a ++ b) = entriesKeys a ++ entriesKeys b := by
  simp [entriesKeys]

/-- Helper: keys of a cons view. -/
theorem entriesKeys_cons (e : LeafEntry) (rest : List LeafEntry) :
    entriesKeys (e :: rest) = e.1 :: entriesKeys rest := rfl

/-- Helper: data of an appended view. -/
theorem entriesData_append (a b : List LeafEntry) :
    entriesData (a ++ b) = entriesData a ++ entriesData b := by
  simp [entriesData]

/-- Helper: data of a cons view. -/
theorem entriesData_cons (e : LeafEntry) (rest : List LeafEntry) :
    entriesData (e :: rest) = e.2 ++ entriesData rest := by
  simp [entriesData]

/-- Helper: the view has as many keys as entries. -/
theorem entriesKeys_length (m : List LeafEntry) : (entriesKeys m).length = m.length :=
  List.length_map m Prod.fst

/-- Helper: with 4-byte blocks the flat data has `4 · |entries|` bytes. -/
theorem entriesData_length (m : List LeafEntry) (hb : ∀ e ∈ m, e.2.length = valueSize) :
    (entriesData m).length = valueSize * m.length := by
  induction m with
  | nil => rfl
  | cons e rest ih =>
    rw [entriesData_cons, List.length_append, hb e (List.mem_cons_self _ _),
      ih (fun x hx => hb x (List.mem_cons_of_mem _ hx))]
    simp [Nat.mul_succ, Nat.add_comm]

/-- Helper: any list splits around two adjacent in-range positions. -/
theorem exists_decomp_two {α : Type} (l : List α) (j : Nat) (h : j + 1 < l.length) :
    ∃ (pre : List α) (y : α) (x : α) (post : List α),
      l = pre ++ y :: x :: post ∧ pre.length = j := by
  induction l generalizing j with
  | nil => cases h
  | cons a rest ih =>
    cases j with
    | zero =>
      cases rest with
      | nil => simp at h
      | cons b r2 => exact ⟨[], a, b, r2, rfl, rfl⟩
    | succ j2 =>
      obtain ⟨pre, y, x, post, heq, hpre⟩ := ih j2 (by simpa using h)
      exact ⟨a :: pre, y, x, post, by rw [heq]; rfl, by simp [hpre]⟩

/-- Helper: the flat sort-down loop of the leaf insert tracks the
entry-level loop: keys and data of the bubbled page are the keys and data
of the bubbled entry list. -/
theorem bubbleStep_pairs (j : Nat) : ∀ (m : List LeafEntry),
    (∀ e ∈ m, e.2.length = valueSize) → j < m.length →
    bubbleStep (entriesKeys m) (entriesData m) j
      = (entriesKeys (bubblePair m j), entriesData (bubblePair m j)) := by
  induction j with
  | zero => intro m hb hj; rfl
  | succ j2 ih =>
    intro m hb hj
    obtain ⟨pre, y, x, post, heq, hpre⟩ := exists_decomp_two m j2 hj
    subst heq
    have hkl : (entriesKeys pre).length = j2 := by rw [entriesKeys_length, hpre]
    have hdl : (entriesData pre).length = valueSize * j2 := by
      rw [entriesData_length pre (fun e he => hb e (List.mem_append_left _ he)), hpre]
    have hkeq : entriesKeys (pre ++ y :: x :: post)
        = entriesKeys pre ++ y.1 :: x.1 :: entriesKeys post := by
      rw [entriesKeys_append, entriesKeys_cons, entriesKeys_cons]
    have hdeq : entriesData (pre ++ y :: x :: post)
        = entriesData pre ++ (y.2 ++ (x.2 ++ entriesData post)) := by
      rw [entriesData_append, entriesData_cons, entriesData_cons]
    have hgk1 : (entriesKeys (pre ++ y :: x :: post)).getD (j2 + 1) 0 = x.1 := by
      rw [hkeq, show j2 + 1 = (entriesKeys pre).length + 1 by rw [hkl], getD_append_add]
      rfl
    have hgk0 : (entriesKeys (pre ++ y :: x :: post)).getD j2 0 = y.1 := by
      rw [hkeq, show j2 = (entriesKeys pre).length + 0 by rw [hkl]; rfl, getD_append_add]
      rfl
    have hgp1 : ((pre ++ y :: x :: post).getD (j2 + 1) (0, [])).1 = x.1 := by
      rw [show j2 + 1 = pre.length + 1 by rw [hpre], getD_append_add]
      rfl
    have hgp0 : ((pre ++ y :: x :: post).getD j2 (0, [])).1 = y.1 := by
      rw [show j2 = pre.length + 0 by rw [hpre]; rfl, getD_append_add]
      rfl
    by_cases hcond : x.1 < y.1
    · have hstep : bubbleStep (entriesKeys (pre ++ y :: x :: post))
          (entriesData (pre ++ y :: x :: post)) (j2 + 1)
          = bubbleStep
              (listSwap (entriesKeys (pre ++ y :: x :: post)) (j2 + 1) j2)
              (swapBytes (entriesData (pre ++ y :: x :: post))
                ((j2 + 1) * valueSize) (j2 * valueSize) valueSize) j2 := by
        show (if (entriesKeys (pre ++ y :: x :: post)).getD (j2 + 1) 0
              < (entriesKeys (pre ++ y :: x :: post)).getD j2 0 then _ else _) = _
        rw [hgk1, hgk0, if_pos hcond]
      have hpair : bubblePair (pre ++ y :: x :: post) (j2 + 1)
          = bubblePair (swapPair (pre ++ y :: x :: post) (j2 + 1) j2) j2 := by
        show (if ((pre ++ y :: x :: post).getD (j2 + 1) (0, [])).1
              < ((pre ++ y :: x :: post).getD j2 (0, [])).1 then _ else _) = _
        rw [hgp1, hgp0, if_pos hcond]
      have hswk : listSwap (entriesKeys (pre ++ y :: x :: post)) (j2 + 1) j2
          = entriesKeys (pre ++ x :: y :: post) := by
        rw [hkeq, show j2 + 1 = (entriesKeys pre).length + 1 by rw [hkl],
          show j2 = (entriesKeys pre).length by rw [hkl], listSwap_adjacent,
          entriesKeys_append, entriesKeys_cons, entriesKeys_cons]
      have hswd : swapBytes (entriesData (pre ++ y :: x :: post))
          ((j2 + 1) * valueSize) (j2 * valueSize) valueSize
          = entriesData (pre ++ x :: y :: post) := by
        have hby : y.2.length = valueSize := hb y (by simp)
        have hbx : x.2.length = valueSize := hb x (by simp)
        rw [hdeq, show (j2 + 1) * valueSize = (entriesData pre).length + valueSize by
            rw [hdl]; ring,
          show j2 * valueSize = (entriesData pre).length by rw [hdl]; ring,
          swapBytes_blocks _ _ _ _ _ hby hbx,
          entriesData_append, entriesData_cons, entriesData_cons]
      have hswp : swapPair (pre ++ y :: x :: post) (j2 + 1) j2
          = pre ++ x :: y :: post := by
        rw [show j2 + 1 = pre.length + 1 by rw [hpre],
          show j2 = pre.length by rw [hpre], swapPair_adjacent]
      rw [hstep, hpair, hswk, hswd, hswp]
      refine ih (pre ++ x :: y :: post) ?_ ?_
      · intro e he
        apply hb e
        simp only [List.mem_append, List.mem_cons] at he ⊢
        tauto
      · have := hpre
        simp only [List.length_append, List.length_cons]
        omega
    · have hstep : bubbleStep (entriesKeys (pre ++ y :: x :: post))
          (entriesData (pre ++ y :: x :: post)) (j2 + 1)
          = (entriesKeys (pre ++ y :: x :: post), entriesData (pre ++ y :: x :: post)) := by
        show (if (entriesKeys (pre ++ y :: x :: post)).getD (j2 + 1) 0
              < (entriesKeys (pre ++ y :: x :: post)).getD j2 0 then _ else _) = _
        rw [hgk1, hgk0, if_neg hcond]
      have hpair : bubblePair (pre ++ y :: x :: post) (j2 + 1)
          = pre ++ y :: x :: post := by
        show (if ((pre ++ y :: x :: post).getD (j2 + 1) (0, [])).1
              < ((pre ++ y :: x :: post).getD j2 (0, [])).1 then _ else _) = _
        rw [hgp1, hgp0, if_neg hcond]
      rw [hstep, hpair]

/-- Helper: `takeWhile` stops before an element that fails the predicate. -/
theorem takeWhile_append_cons_of_neg {α : Type} (p : α → Bool) (l : List α) (a : α)
    (r : List α) (h : p a = false) :
    (l ++ a :: r).takeWhile p = l.takeWhile p := by
  induction l with
  | nil => simp [List.takeWhile_cons, h]
  | cons x rest ih =>
    rw [List.cons_append, List.takeWhile_cons, List.takeWhile_cons, ih]

/-- Helper: `dropWhile` keeps everything from a failing element on. -/
theorem dropWhile_append_cons_of_neg {α : Type} (p : α → Bool) (l : List α) (a : α)
    (r : List α) (h : p a = false) :
    (l ++ a :: r).dropWhile p = l.dropWhile p ++ a :: r := by
  induction l with
  | nil => simp [List.dropWhile_cons, h]
  | cons x rest ih =>
    rw [List.cons_append, List.dropWhile_cons, List.dropWhile_cons]
    cases p x with
    | false => rfl
    | true => exact ih

/-- Helper: the entry-level sort-down loop performs a stable sorted insert:
starting from a sorted prefix `A`, the freshly appended entry `e` moves
left past everything strictly greater, landing after the last entry with
key at most `e.1`; `B` collects entries already bubbled past. -/
theorem bubblePair_sorted_insert (A : List LeafEntry) (e : LeafEntry) (B : List LeafEntry)
    (hs : (entriesKeys A).Sorted (· ≤ ·)) (hB : ∀ b ∈ B, e.1 < b.1) :
    bubblePair (A ++ e :: B) A.length
      = A.takeWhile (fun a => decide (a.1 ≤ e.1))
          ++ e :: (A.dropWhile (fun a => decide (a.1 ≤ e.1)) ++ B) := by
  revert hB hs
  induction A using List.reverseRecOn generalizing B with
  | nil =>
    intro hs hB
    simp [bubblePair]
  | append_singleton A0 a ih =>
    intro hs hB
    have hlen : (A0 ++ [a]).length = A0.length + 1 := by simp
    have hassoc : (A0 ++ [a]) ++ e :: B = A0 ++ a :: e :: B := by simp
    have hge : ((A0 ++ a :: e :: B).getD (A0.length + 1) (0, [])).1 = e.1 := by
      rw [getD_append_add]
      rfl
    have hga : ((A0 ++ a :: e :: B).getD A0.length (0, [])).1 = a.1 := by
      rw [show A0.length = A0.length + 0 from rfl, getD_append_add]
      rfl
    have hs0 : (entriesKeys A0).Sorted (· ≤ ·) := by
      have heq : entriesKeys (A0 ++ [a]) = entriesKeys A0 ++ entriesKeys [a] :=
        entriesKeys_append A0 [a]
      rw [heq] at hs
      exact hs.sublist (List.sublist_append_left _ _)
    rw [hlen, hassoc]
    by_cases hcond : e.1 < a.1
    · have hstep : bubblePair (A0 ++ a :: e :: B) (A0.length + 1)
          = bubblePair (swapPair (A0 ++ a :: e :: B) (A0.length + 1) A0.length) A0.length := by
        show (if ((A0 ++ a :: e :: B).getD (A0.length + 1) (0, [])).1
              < ((A0 ++ a :: e :: B).getD A0.length (0, [])).1 then _ else _) = _
        rw [hge, hga, if_pos hcond]
      have hmem : ∀ b ∈ a :: B, e.1 < b.1 := by
        intro b hb2
        rcases List.mem_cons.mp hb2 with hb2 | hb2
        · rw [hb2]; exact hcond
        · exact hB b hb2
      rw [hstep, swapPair_adjacent, ih (a :: B) hs0 hmem]
      have hpa : (fun x : LeafEntry => decide (x.1 ≤ e.1)) a = false := by
        simp only [decide_eq_false_iff_not]
        omega
      rw [takeWhile_append_cons_of_neg _ A0 a [] hpa, dropWhile_append_cons_of_neg _ A0 a [] hpa]
      simp
    · have hstep : bubblePair (A0 ++ a :: e :: B) (A0.length + 1) = A0 ++ a :: e :: B := by
        show (if ((A0 ++ a :: e :: B).getD (A0.length + 1) (0, [])).1
              < ((A0 ++ a :: e :: B).getD A0.length (0, [])).1 then _ else _) = _
        rw [hge, hga, if_neg hcond]
      rw [hstep]
      have hall : ∀ x ∈ A0 ++ [a], (fun y : LeafEntry => decide (y.1 ≤ e.1)) x = true := by
        intro x hx
        simp only [decide_eq_true_eq]
        rcases List.mem_append.mp hx with hx | hx
        · have hkx : x.1 ∈ entriesKeys A0 := List.mem_map_of_mem Prod.fst hx
          have hka : ∀ k ∈ entriesKeys A0, k ≤ a.1 := by
            have heq : entriesKeys (A0 ++ [a]) = entriesKeys A0 ++ [a.1] := by
              rw [entriesKeys_append]
              rfl
            rw [heq] at hs
            intro k hk
            exact (List.pairwise_append.mp hs).2.2 k hk a.1 (List.mem_singleton_self _)
          have := hka x.1 hkx
          omega
        · have hxa : x = a := by simpa using hx
          rw [hxa]
          omega
      rw [List.takeWhile_eq_self_iff.mpr hall, List.dropWhile_eq_nil_iff.mpr hall]
      simp

/-- Helper: dropping to an in-range position exposes that element. -/
theorem drop_getD_cons {α : Type} (l : List α) (i : Nat) (d : α) (h : i < l.length) :
    l.drop i = l.getD i d :: l.drop (i + 1) := by
  induction l generalizing i with
  | nil => cases h
  | cons x rest ih =>
    cases i with
    | zero => rfl
    | succ i2 => exact ih i2 (Nat.lt_of_succ_lt_succ h)

/-- Helper: reading the view's keys positionally. -/
theorem entriesKeys_getD (m : List LeafEntry) (i : Nat) (h : i < m.length) :
    (entriesKeys m).getD i 0 = (m.getD i (0, [])).1 := by
  induction m generalizing i with
  | nil => cases h
  | cons e rest ih =>
    cases i with
    | zero => rfl
    | succ i2 => exact ih i2 (Nat.lt_of_succ_lt_succ h)

/-- Helper: erasing an entry erases its key. -/
theorem entriesKeys_eraseIdx (m : List LeafEntry) (i : Nat) :
    entriesKeys (m.eraseIdx i) = (entriesKeys m).eraseIdx i := by
  simp only [entriesKeys, List.eraseIdx_eq_take_drop_succ, List.map_append, List.map_take,
    List.map_drop, List.length_map]

/-- Helper: erasing an entry cuts its 4-byte block out of the flat data. -/
theorem entriesData_eraseIdx (m : List LeafEntry) (i : Nat)
    (hb : ∀ e ∈ m, e.2.length = valueSize) (hi : i < m.length) :
    (entriesData m).take (i * valueSize)
        ++ (entriesData m).drop (i * valueSize + valueSize)
      = entriesData (m.eraseIdx i) := by
  induction m generalizing i with
  | nil => cases hi
  | cons e rest ih =>
    have hbe : e.2.length = valueSize := hb e (List.mem_cons_self _ _)
    cases i with
    | zero =>
      rw [entriesData_cons]
      show List.take 0 _ ++ _ = _
      rw [List.take_zero, List.nil_append, Nat.zero_mul, Nat.zero_add,
        List.drop_append_eq_append_drop, List.drop_of_length_le (by omega), hbe,
        Nat.sub_self, List.drop_zero, List.nil_append]
      rfl
    | succ i2 =>
      have hih := ih i2 (fun x hx => hb x (List.mem_cons_of_mem _ hx))
        (Nat.lt_of_succ_lt_succ hi)
      rw [entriesData_cons, List.take_append_eq_append_take, List.drop_append_eq_append_drop,
        List.take_of_length_le (by rw [hbe]; simp [Nat.succ_mul]),
        List.drop_of_length_le (by rw [hbe]; simp [Nat.succ_mul]),
        show (i2 + 1) * valueSize - e.2.length = i2 * valueSize by
          rw [hbe]; simp [Nat.succ_mul],
        show (i2 + 1) * valueSize + valueSize - e.2.length = i2 * valueSize + valueSize by
          rw [hbe]; simp [Nat.succ_mul]]
      show e.2 ++ _ ++ ([] ++ _) = _
      rw [List.nil_append, List.append_assoc, hih]
      rfl

/-- Helper: everything the sort-down loop bubbled past has a key strictly
above `k`. -/
theorem dropWhile_keys_gt (m : List LeafEntry) (k : Nat)
    (hp : m.Pairwise (fun a b => a.1 ≤ b.1)) :
    ∀ d ∈ m.dropWhile (fun a => decide (a.1 ≤ k)), k < d.1 := by
  induction m with
  | nil => intro d hd; cases hd
  | cons e rest ih =>
    intro d hd
    by_cases hpe : e.1 ≤ k
    · rw [List.dropWhile_cons, if_pos (by simpa using hpe)] at hd
      exact ih (List.Pairwise.sublist (List.sublist_cons_self _ _) hp) d hd
    · rw [List.dropWhile_cons, if_neg (by simpa using hpe)] at hd
      rcases List.mem_cons.mp hd with hd | hd
      · subst hd
        omega
      · have := (List.pairwise_cons.mp hp).1 d hd
        omega

/-- Helper: the sorted insert of the bubble loop keeps entry keys weakly
sorted. -/
theorem pairwise_le_insert (m : List LeafEntry) (e : LeafEntry)
    (hp : m.Pairwise (fun a b => a.1 ≤ b.1)) :
    (m.takeWhile (fun a => decide (a.1 ≤ e.1))
        ++ e :: m.dropWhile (fun a => decide (a.1 ≤ e.1))).Pairwise
      (fun a b => a.1 ≤ b.1) := by
  rw [List.pairwise_append]
  refine ⟨List.Pairwise.sublist (List.takeWhile_sublist _) hp, ?_, ?_⟩
  · rw [List.pairwise_cons]
    exact ⟨fun d hd => Nat.le_of_lt (dropWhile_keys_gt m e.1 hp d hd),
      List.Pairwise.sublist (List.dropWhile_sublist _) hp⟩
  · intro x hx y hy
    have hxk : x.1 ≤ e.1 := by simpa using List.mem_takeWhile_imp hx
    rcases List.mem_cons.mp hy with hy | hy
    · rw [hy]; exact hxk
    · have := dropWhile_keys_gt m e.1 hp y hy
      omega

/-- Helper: when the inserted key is fresh, strict sortedness of keys is
preserved. -/
theorem pairwise_lt_insert (m : List LeafEntry) (e : LeafEntry)
    (hp : m.Pairwise (fun a b => a.1 < b.1)) (hfresh : e.1 ∉ entriesKeys m) :
    (m.takeWhile (fun a => decide (a.1 ≤ e.1))
        ++ e :: m.dropWhile (fun a => decide (a.1 ≤ e.1))).Pairwise
      (fun a b => a.1 < b.1) := by
  have hple : m.Pairwise (fun a b => a.1 ≤ b.1) :=
    hp.imp (fun h => Nat.le_of_lt h)
  rw [List.pairwise_append]
  refine ⟨List.Pairwise.sublist (List.takeWhile_sublist _) hp, ?_, ?_⟩
  · rw [List.pairwise_cons]
    exact ⟨fun d hd => dropWhile_keys_gt m e.1 hple d hd,
      List.Pairwise.sublist (List.dropWhile_sublist _) hp⟩
  · intro x hx y hy
    have hxk : x.1 ≤ e.1 := by simpa using List.mem_takeWhile_imp hx
    have hxm : x ∈ m := (List.takeWhile_sublist _).subset hx
    have hxne : x.1 ≠ e.1 := by
      intro hcontra
      exact hfresh (hcontra ▸ List.mem_map_of_mem Prod.fst hxm)
    rcases List.mem_cons.mp hy with hy | hy
    · rw [hy]; omega
    · have := dropWhile_keys_gt m e.1 hple y hy
      omega

/-- Helper: looking a key up in a view that does not contain it fails. -/
theorem lookup_none_of_not_mem_keys (m : List LeafEntry) (k : Nat)
    (h : k ∉ entriesKeys m) :
    List.lookup k m = none := by
  induction m with
  | nil => rfl
  | cons e rest ih =>
    obtain ⟨ek, ev⟩ := e
    have hne : k ≠ ek := fun hc => h (hc ▸ List.mem_cons_self _ _)
    have hb : (k == ek) = false := by simpa using hne
    rw [List.lookup_cons, hb]
    exact ih (fun hc => h (List.mem_cons_of_mem _ hc))

/-- Helper: a successful lookup means the key is present. -/
theorem mem_keys_of_lookup_some (m : List LeafEntry) (k : Nat) (bv : List Nat)
    (h : List.lookup k m = some bv) :
    k ∈ entriesKeys m := by
  induction m generalizing bv with
  | nil => cases h
  | cons e rest ih =>
    obtain ⟨ek, ev⟩ := e
    by_cases hk : k = ek
    · rw [hk]; exact List.mem_cons_self _ _
    · have hb : (k == ek) = false := by simpa using hk
      rw [List.lookup_cons, hb] at h
      simp only [] at h
      exact List.mem_cons_of_mem _ (ih bv h)

/-- Helper: after the sorted insert of a fresh key, looking that key up
returns the freshly inserted block. -/
theorem lookup_insert_self (m : List LeafEntry) (k : Nat) (bv : List Nat)
    (hfresh : k ∉ entriesKeys m) :
    List.lookup k (m.takeWhile (fun a => decide (a.1 ≤ k))
        ++ (k, bv) :: m.dropWhile (fun a => decide (a.1 ≤ k))) = some bv := by
  rw [List.lookup_append]
  have h1 : List.lookup k (m.takeWhile (fun a => decide (a.1 ≤ k))) = none := by
    refine lookup_none_of_not_mem_keys _ _ (fun hc => hfresh ?_)
    obtain ⟨e, he, hek⟩ := List.mem_map.mp hc
    exact hek ▸ List.mem_map_of_mem Prod.fst ((List.takeWhile_sublist _).subset he)
  rw [h1, List.lookup_cons]
  simp

/-- Helper: the sorted insert leaves lookups of other keys unchanged. -/
theorem lookup_insert_other (m : List LeafEntry) (ek : Nat) (ev : List Nat) (k : Nat)
    (hk : k ≠ ek) :
    List.lookup k (m.takeWhile (fun a => decide (a.1 ≤ ek))
        ++ (ek, ev) :: m.dropWhile (fun a => decide (a.1 ≤ ek))) = List.lookup k m := by
  have hb : (k == ek) = false := by simpa using hk
  conv_rhs =>
    rw [← List.takeWhile_append_dropWhile (p := fun a : LeafEntry => decide (a.1 ≤ ek)) (l := m)]
  rw [List.lookup_append, List.lookup_append]
  have h2 : List.lookup k ((ek, ev) :: m.dropWhile (fun a : LeafEntry => decide (a.1 ≤ ek)))
      = List.lookup k (m.dropWhile (fun a : LeafEntry => decide (a.1 ≤ ek))) := by
    rw [List.lookup_cons, hb]
  rw [h2]

/-- Helper: erasing the entry at a position whose key differs from `k`
leaves the lookup of `k` unchanged. -/
theorem lookup_eraseIdx_other (m : List LeafEntry) (i k : Nat) (hi : i < m.length)
    (hne : (m.getD i (0, [])).1 ≠ k) :
    List.lookup k (m.eraseIdx i) = List.lookup k m := by
  rcases he : m.getD i (0, []) with ⟨ek, ev⟩
  have hkek : k ≠ ek := by
    rw [he] at hne
    exact fun hc => hne hc.symm
  have hb : (k == ek) = false := by simpa using hkek
  have hdecomp : m = m.take i ++ (ek, ev) :: m.drop (i + 1) := by
    conv_lhs => rw [← List.take_append_drop i m]
    rw [drop_getD_cons m i (0, []) hi, he]
  rw [List.eraseIdx_eq_take_drop_succ, List.lookup_append]
  conv_rhs => rw [hdecomp, List.lookup_append]
  have h2 : List.lookup k ((ek, ev) :: m.drop (i + 1)) = List.lookup k (m.drop (i + 1)) := by
    rw [List.lookup_cons, hb]
  rw [h2]

/-- Helper: the leaf insert step of `insertNonFull` realises the sorted
insert of the new entry on the abstract view; the store that follows only
renames the page id. -/
theorem leafInsertStored_entries (s : ContentStorage) (p : Page) (m : List LeafEntry)
    (k v : Nat) (hr : ReprLeaf p m) (hp : m.Pairwise (fun a b => a.1 ≤ b.1)) :
    ReprLeaf (BTree.leafInsertStored s p k v).2
      (m.takeWhile (fun a => decide (a.1 ≤ k))
        ++ (k, intLEBytes v) :: m.dropWhile (fun a => decide (a.1 ≤ k))) := by
  obtain ⟨hlf, hks, hdt, hbl⟩ := hr
  have hbl2 : ∀ e ∈ m ++ [(k, intLEBytes v)], e.2.length = valueSize := by
    intro e he
    rcases List.mem_append.mp he with he | he
    · exact hbl e he
    · rw [List.mem_singleton.mp he]
      rfl
  have hkeys1 : p.keys ++ [k] = entriesKeys (m ++ [(k, intLEBytes v)]) := by
    rw [hks, entriesKeys_append]
    rfl
  have hdata1 : p.data ++ intLEBytes v = entriesData (m ++ [(k, intLEBytes v)]) := by
    rw [hdt, entriesData_append, entriesData_cons]
    simp [entriesData]
  have hlen1 : (p.keys ++ [k]).length - 1 = m.length := by
    rw [hkeys1, entriesKeys_length]
    simp
  have hbridge := bubbleStep_pairs m.length (m ++ [(k, intLEBytes v)]) hbl2
    (by simp)
  have hsorted : (entriesKeys m).Sorted (· ≤ ·) := List.pairwise_map.mpr hp
  have hchar := bubblePair_sorted_insert m (k, intLEBytes v) [] hsorted (by intro b hb; cases hb)
  have hshape : bubbleStep (p.keys ++ [k]) (p.data ++ intLEBytes v) ((p.keys ++ [k]).length - 1)
      = (entriesKeys (m.takeWhile (fun a => decide (a.1 ≤ k))
            ++ (k, intLEBytes v) :: m.dropWhile (fun a => decide (a.1 ≤ k))),
         entriesData (m.takeWhile (fun a => decide (a.1 ≤ k))
            ++ (k, intLEBytes v) :: m.dropWhile (fun a => decide (a.1 ≤ k)))) := by
    rw [hlen1, hkeys1, hdata1, hbridge]
    have hm : m ++ (k, intLEBytes v) :: [] = m ++ [(k, intLEBytes v)] := rfl
    rw [← hm] at hchar
    rw [hchar]
    simp
  refine ⟨hlf, ?_, ?_, ?_⟩
  · show (BTree.insertNonFullLeaf p k v).keys = _
    simp only [BTree.insertNonFullLeaf]
    rw [hshape]
  · show (BTree.insertNonFullLeaf p k v).data = _
    simp only [BTree.insertNonFullLeaf]
    rw [hshape]
  · intro e he
    rcases List.mem_append.mp he with he | he
    · exact hbl e ((List.takeWhile_sublist _).subset he)
    · rcases List.mem_cons.mp he with he | he
      · rw [he]
        rfl
      · exact hbl e ((List.dropWhile_sublist _).subset he)

/-- Helper: the leaf delete step either leaves the page untouched (key not
found) or erases exactly the entry at the found position, whose key is the
searched key. -/
theorem deleteStep_entries (st : ContentStorage × Page) (m : List LeafEntry) (k : Nat)
    (hr : ReprLeaf st.2 m) :
    ∃ m2, ReprLeaf (BTree.deleteStep st k).2 m2 ∧
      (m2 = m ∨ ∃ i, i < m.length ∧ (m.getD i (0, [])).1 = k ∧ m2 = m.eraseIdx i) := by
  obtain ⟨hlf, hks, hdt, hbl⟩ := hr
  by_cases hcond : st.2.keys.findIdx (fun x => decide (k ≤ x)) < st.2.keys.length ∧
      st.2.keys.getD (st.2.keys.findIdx (fun x => decide (k ≤ x))) 0 = k
  · set idx := st.2.keys.findIdx (fun x => decide (k ≤ x)) with hidx
    have hstep : (BTree.deleteStep st k).2 =
        { st.2 with
            keys := st.2.keys.eraseIdx idx,
            data := st.2.data.take (idx * valueSize)
              ++ st.2.data.drop (idx * valueSize + valueSize),
            header := { ({ st.2 with
                keys := st.2.keys.eraseIdx idx,
                data := st.2.data.take (idx * valueSize)
                  ++ st.2.data.drop (idx * valueSize + valueSize) } : Page).header with
              page_id := (ContentStorage.storePage st.1 { st.2 with
                keys := st.2.keys.eraseIdx idx,
                data := st.2.data.take (idx * valueSize)
                  ++ st.2.data.drop (idx * valueSize + valueSize) }).1 } } := by
      simp only [BTree.deleteStep, ← hidx, if_pos hcond]
    have hilen : idx < m.length := by
      have := hcond.1
      rw [hks, entriesKeys_length] at this
      exact this
    refine ⟨m.eraseIdx idx, ⟨?_, ?_, ?_, ?_⟩, Or.inr ⟨idx, hilen, ?_, rfl⟩⟩
    · rw [hstep]
      exact hlf
    · rw [hstep]
      show st.2.keys.eraseIdx idx = _
      rw [hks, entriesKeys_eraseIdx]
    · rw [hstep]
      show st.2.data.take (idx * valueSize) ++ st.2.data.drop (idx * valueSize + valueSize) = _
      rw [hdt, entriesData_eraseIdx m idx hbl hilen]
    · intro e he
      exact hbl e ((List.eraseIdx_sublist m idx).subset he)
    · have := hcond.2
      rw [hks, entriesKeys_getD m idx hilen] at this
      exact this
  · have hstep : BTree.deleteStep st k = st := by
      simp only [BTree.deleteStep, if_neg hcond]
    exact ⟨m, by rw [hstep]; exact ⟨hlf, hks, hdt, hbl⟩, Or.inl rfl⟩

/-- Helper: the value scan of `search` ignores a leading 4-byte block when
its slot index is advanced by one. -/
theorem searchScan_shift (b0 d : List Nat) (k : Nat) (ks : List Nat) (i : Nat)
    (hb0 : b0.length = valueSize) :
    BTree.searchScan (b0 ++ d) k ks (i + 1) = BTree.searchScan d k ks i := by
  induction ks generalizing i with
  | nil => rfl
  | cons x rest ih =>
    have hlen : (b0 ++ d).length = valueSize + d.length := by
      rw [List.length_append, hb0]
    have hiff : ((i + 1) * valueSize + valueSize ≤ (b0 ++ d).length)
        ↔ (i * valueSize + valueSize ≤ d.length) := by
      rw [hlen]
      simp only [valueSize]
      omega
    show (if x = k ∧ (i + 1) * valueSize + valueSize ≤ (b0 ++ d).length then _ else _)
        = (if x = k ∧ i * valueSize + valueSize ≤ d.length then _ else _)
    by_cases hx : x = k ∧ i * valueSize + valueSize ≤ d.length
    · rw [if_pos ⟨hx.1, hiff.mpr hx.2⟩, if_pos hx]
      have hdrop : (b0 ++ d).drop ((i + 1) * valueSize) = d.drop (i * valueSize) := by
        rw [List.drop_append_eq_append_drop,
          List.drop_of_length_le (by rw [hb0]; simp only [valueSize]; omega),
          show (i + 1) * valueSize - b0.length = i * valueSize by
            rw [hb0]; simp only [valueSize]; omega,
          List.nil_append]
      rw [hdrop]
    · rw [if_neg (fun hc => hx ⟨hc.1, hiff.mp hc.2⟩), if_neg hx]
      exact ih (i + 1)

/-- Helper: on a strictly sorted view, a present key passes the leaf-branch
check of `findKey` and the value scan of `search` returns its block. -/
theorem search_core (m : List LeafEntry) (k : Nat) (bv : List Nat)
    (hp : m.Pairwise (fun a b => a.1 < b.1))
    (hb : ∀ e ∈ m, e.2.length = valueSize)
    (hlk : List.lookup k m = some bv) :
    ((entriesKeys m).findIdx (fun x => decide (k ≤ x)) < (entriesKeys m).length ∧
        (entriesKeys m).getD ((entriesKeys m).findIdx (fun x => decide (k ≤ x))) 0 = k) ∧
      BTree.searchScan (entriesData m) k (entriesKeys m) 0 = some (deserializeValue bv) := by
  induction m generalizing bv with
  | nil => cases hlk
  | cons e rest ih =>
    obtain ⟨ek, ev⟩ := e
    have hbe : ev.length = valueSize := hb (ek, ev) (List.mem_cons_self _ _)
    by_cases hk : k = ek
    · have hbv : bv = ev := by
        rw [List.lookup_cons, show (k == ek) = true by simpa using hk] at hlk
        exact (Option.some.injEq _ _ ▸ hlk).symm
      have hfind : (entriesKeys ((ek, ev) :: rest)).findIdx (fun x => decide (k ≤ x)) = 0 := by
        rw [entriesKeys_cons, List.findIdx_cons]
        simp [hk]
      refine ⟨⟨by rw [hfind]; simp [entriesKeys_cons], by rw [hfind, entriesKeys_cons]; simpa using hk.symm⟩, ?_⟩
      rw [entriesKeys_cons, entriesData_cons]
      show (if ek = k ∧ 0 * valueSize + valueSize ≤ (ev ++ entriesData rest).length
          then _ else _) = _
      rw [if_pos ⟨hk.symm, by
        rw [List.length_append, show ((ek, ev).2).length = valueSize from hbe,
          Nat.zero_mul, Nat.zero_add]
        exact Nat.le_add_right _ _⟩]
      rw [hbv]
      congr 1
      congr 1
      rw [Nat.zero_mul, List.drop_zero, List.take_append_eq_append_take,
        List.take_of_length_le (Nat.le_of_eq (show ev.length = valueSize from hbe)),
        show valueSize - ev.length = 0 by
          rw [show ev.length = valueSize from hbe, Nat.sub_self],
        List.take_zero, List.append_nil]
    · have hlk2 : List.lookup k rest = some bv := by
        rw [List.lookup_cons, show (k == ek) = false by simpa using hk] at hlk
        exact hlk
      have hkm : k ∈ entriesKeys rest := mem_keys_of_lookup_some rest k bv hlk2
      have hekk : ek < k := by
        obtain ⟨e2, he2, hke2⟩ := List.mem_map.mp hkm
        have := (List.pairwise_cons.mp hp).1 e2 he2
        omega
      have hih := ih bv (List.pairwise_cons.mp hp).2
        (fun x hx => hb x (List.mem_cons_of_mem _ hx)) hlk2
      have hfind : (entriesKeys ((ek, ev) :: rest)).findIdx (fun x => decide (k ≤ x))
          = (entriesKeys rest).findIdx (fun x => decide (k ≤ x)) + 1 := by
        rw [entriesKeys_cons, List.findIdx_cons]
        have : decide (k ≤ ek) = false := by simp; omega
        rw [this]
        rfl
      refine ⟨⟨?_, ?_⟩, ?_⟩
      · rw [hfind, entriesKeys_cons]
        simp only [List.length_cons]
        omega
      · rw [hfind, entriesKeys_cons]
        show (entriesKeys rest).getD ((entriesKeys rest).findIdx (fun x => decide (k ≤ x))) 0 = k
        exact hih.1.2
      · rw [entriesKeys_cons, entriesData_cons]
        show (if ek = k ∧ 0 * valueSize + valueSize ≤ (ev ++ entriesData rest).length
            then _ else _) = _
        rw [if_neg (fun hc => hk hc.1.symm)]
        rw [searchScan_shift ev (entriesData rest) k (entriesKeys rest) 0 hbe]
        exact hih.2

/-- Helper: `search` on a leaf root returns the stored value of any key
present in the strictly sorted view. -/
theorem searchLeafRoot_lookup (st : ContentStorage × Page) (m : List LeafEntry) (k : Nat)
    (bv : List Nat) (hr : ReprLeaf st.2 m)
    (hp : m.Pairwise (fun a b => a.1 < b.1))
    (hlk : List.lookup k m = some bv) :
    BTree.searchLeafRoot st k = some (deserializeValue bv) := by
  obtain ⟨hlf, hks, hdt, hbl⟩ := hr
  have hc := search_core m k bv hp hbl hlk
  simp only [BTree.searchLeafRoot]
  rw [hks, hdt, if_pos hc.1]
  exact hc.2

/-- Helper: decoding a stored 32-bit value returns the value. -/
theorem deserialize_intLEBytes (v : Nat) (hv : v < 2 ^ 32) :
    deserializeValue (intLEBytes v) = v := by
  simp only [deserializeValue, intLEBytes, List.foldr_cons, List.foldr_nil]
  omega

/-- Helper: an admissible run with no delete of `k` preserves the presence
of `k` with its stored block, along with the leaf view invariants. -/
theorem runOps_preserves_lookup (maxKeysPerNode : Nat) (σ : List TreeOp) :
    ∀ (st : ContentStorage × Page) (m : List LeafEntry) (k : Nat) (bv : List Nat)
      (st2 : ContentStorage × Page),
    ReprLeaf st.2 m → m.Pairwise (fun a b => a.1 < b.1) →
    BTree.admissibleB maxKeysPerNode st σ = true →
    List.lookup k m = some bv →
    TreeOp.delOp k ∉ σ →
    BTree.runOps maxKeysPerNode st σ = some st2 →
    ∃ m2, ReprLeaf st2.2 m2 ∧ m2.Pairwise (fun a b => a.1 < b.1) ∧
      List.lookup k m2 = some bv := by
  induction σ with
  | nil =>
    intro st m k bv st2 hr hp hadm hlk hnd hrun
    have hst : st2 = st := by
      have := hrun
      simp [BTree.runOps] at this
      exact this.symm
    exact ⟨m, hst ▸ hr, hp, hlk⟩
  | cons op rest ih =>
    intro st m k bv st2 hr hp hadm hlk hnd hrun
    cases op with
    | insOp k2 v2 =>
      simp only [BTree.admissibleB, Bool.and_eq_true, decide_eq_true_eq] at hadm
      obtain ⟨⟨⟨hroom, hfresh⟩, hv2⟩, hadm2⟩ := hadm
      have hfresh2 : k2 ∉ entriesKeys m := by
        rw [← hr.2.1]
        exact hfresh
      have hrun2 : BTree.runOps maxKeysPerNode
          (BTree.leafInsertStored st.1 st.2 k2 v2) rest = some st2 := by
        simp only [BTree.runOps, BTree.applyOp, BTree.insertStep,
          if_neg (Nat.ne_of_lt hroom)] at hrun
        exact hrun
      have hkne : k ≠ k2 := by
        intro hc
        exact hfresh2 (hc ▸ mem_keys_of_lookup_some m k bv hlk)
      have hr2 := leafInsertStored_entries st.1 st.2 m k2 v2 hr
        (hp.imp (fun h => Nat.le_of_lt h))
      have hp2 := pairwise_lt_insert m (k2, intLEBytes v2) hp hfresh2
      have hlk2 : List.lookup k
          (m.takeWhile (fun a => decide (a.1 ≤ k2))
            ++ (k2, intLEBytes v2) :: m.dropWhile (fun a => decide (a.1 ≤ k2)))
          = some bv := by
        rw [lookup_insert_other m k2 (intLEBytes v2) k hkne]
        exact hlk
      exact ih _ _ k bv st2 hr2 hp2 hadm2 hlk2
        (fun hc => hnd (List.mem_cons_of_mem _ hc)) hrun2
    | delOp k2 =>
      simp only [BTree.admissibleB] at hadm
      have hk2ne : k2 ≠ k := by
        intro hc
        exact hnd (hc ▸ List.mem_cons_self _ _)
      have hrun2 : BTree.runOps maxKeysPerNode (BTree.deleteStep st k2) rest = some st2 := by
        simpa [BTree.runOps, BTree.applyOp] using hrun
      obtain ⟨m2, hr2, hcase⟩ := deleteStep_entries st m k2 hr
      have hp2 : m2.Pairwise (fun a b => a.1 < b.1) := by
        rcases hcase with hcase | ⟨i, hi, hki, hcase⟩
        · rw [hcase]; exact hp
        · rw [hcase]; exact List.Pairwise.sublist (List.eraseIdx_sublist m i) hp
      have hlk2 : List.lookup k m2 = some bv := by
        rcases hcase with hcase | ⟨i, hi, hki, hcase⟩
        · rw [hcase]; exact hlk
        · rw [hcase, lookup_eraseIdx_other m i k hi (by rw [hki]; exact hk2ne)]
          exact hlk
      exact ih _ m2 k bv st2 hr2 hp2 hadm hlk2
        (fun hc => hnd (List.mem_cons_of_mem _ hc)) hrun2

/-- Helper: the constructor's root is an empty leaf in the view. -/
theorem initState_repr : ReprLeaf BTree.initState.2 [] :=
  ⟨by decide, by decide, by decide, fun e he => absurd he (List.not_mem_nil e)⟩

/-- Helper: an admissible run containing `insert(k, v)` with no later
delete of `k` ends in a state whose leaf-root search returns `v`. -/
theorem runOps_insert_search_aux (maxKeysPerNode : Nat) (σ : List TreeOp) :
    ∀ (st : ContentStorage × Page) (m : List LeafEntry) (k v : Nat)
      (st2 : ContentStorage × Page),
    ReprLeaf st.2 m → m.Pairwise (fun a b => a.1 < b.1) →
    BTree.admissibleB maxKeysPerNode st σ = true →
    (∃ i, ∃ hi : i < σ.length, σ.get ⟨i, hi⟩ = TreeOp.insOp k v ∧
      ∀ j, ∀ hj : j < σ.length, i < j → σ.get ⟨j, hj⟩ ≠ TreeOp.delOp k) →
    BTree.runOps maxKeysPerNode st σ = some st2 →
    BTree.searchLeafRoot st2 k = some v := by
  induction σ with
  | nil =>
    intro st m k v st2 _ _ _ hins _
    obtain ⟨i, hi, _⟩ := hins
    exact absurd hi (by simp)
  | cons op rest ih =>
    intro st m k v st2 hr hp hadm hins hrun
    obtain ⟨i, hi, hget, hnodel⟩ := hins
    cases i with
    | zero =>
      have hop : op = TreeOp.insOp k v := hget
      subst hop
      simp only [BTree.admissibleB, Bool.and_eq_true, decide_eq_true_eq] at hadm
      obtain ⟨⟨⟨hroom, hfresh⟩, hv⟩, hadm2⟩ := hadm
      have hfresh2 : k ∉ entriesKeys m := by
        rw [← hr.2.1]
        exact hfresh
      have hrun2 : BTree.runOps maxKeysPerNode
          (BTree.leafInsertStored st.1 st.2 k v) rest = some st2 := by
        simp only [BTree.runOps, BTree.applyOp, BTree.insertStep,
          if_neg (Nat.ne_of_lt hroom)] at hrun
        exact hrun
      have hr2 := leafInsertStored_entries st.1 st.2 m k v hr
        (hp.imp (fun h => Nat.le_of_lt h))
      have hp2 := pairwise_lt_insert m (k, intLEBytes v) hp hfresh2
      have hlk2 := lookup_insert_self m k (intLEBytes v) hfresh2
      have hnd : TreeOp.delOp k ∉ rest := by
        intro hmem
        obtain ⟨n, hn⟩ := List.mem_iff_get.mp hmem
        exact hnodel (n.1 + 1) (by simpa using Nat.succ_lt_succ n.2) (Nat.succ_pos _)
          (by simpa using hn)
      obtain ⟨m2, hr3, hp3, hlk3⟩ := runOps_preserves_lookup maxKeysPerNode rest _ _
        k (intLEBytes v) st2 hr2 hp2 hadm2 hlk2 hnd hrun2
      rw [searchLeafRoot_lookup st2 m2 k (intLEBytes v) hr3 hp3 hlk3,
        deserialize_intLEBytes v hv]
    | succ i2 =>
      have hi2 : i2 < rest.length := by simpa using Nat.lt_of_succ_lt_succ hi
      have hget2 : rest.get ⟨i2, hi2⟩ = TreeOp.insOp k v := hget
      have hnodel2 : ∀ j, ∀ hj : j < rest.length, i2 < j →
          rest.get ⟨j, hj⟩ ≠ TreeOp.delOp k := by
        intro j hj hlt
        exact hnodel (j + 1) (by simpa using Nat.succ_lt_succ hj) (Nat.succ_lt_succ hlt)
      cases op with
      | insOp k2 v2 =>
        simp only [BTree.admissibleB, Bool.and_eq_true, decide_eq_true_eq] at hadm
        obtain ⟨⟨⟨hroom, hfresh⟩, hv2⟩, hadm2⟩ := hadm
        have hfresh2 : k2 ∉ entriesKeys m := by
          rw [← hr.2.1]
          exact hfresh
        have hrun2 : BTree.runOps maxKeysPerNode
            (BTree.leafInsertStored st.1 st.2 k2 v2) rest = some st2 := by
          simp only [BTree.runOps, BTree.applyOp, BTree.insertStep,
            if_neg (Nat.ne_of_lt hroom)] at hrun
          exact hrun
        have hr2 := leafInsertStored_entries st.1 st.2 m k2 v2 hr
          (hp.imp (fun h => Nat.le_of_lt h))
        have hp2 := pairwise_lt_insert m (k2, intLEBytes v2) hp hfresh2
        exact ih _ _ k v st2 hr2 hp2 hadm2 ⟨i2, hi2, hget2, hnodel2⟩ hrun2
      | delOp k2 =>
        simp only [BTree.admissibleB] at hadm
        have hrun2 : BTree.runOps maxKeysPerNode (BTree.deleteStep st k2) rest
            = some st2 := by
          simpa [BTree.runOps, BTree.applyOp] using hrun
        obtain ⟨m2, hr2, hcase⟩ := deleteStep_entries st m k2 hr
        have hp2 : m2.Pairwise (fun a b => a.1 < b.1) := by
          rcases hcase with hcase | ⟨i3, hi3, hki3, hcase⟩
          · rw [hcase]; exact hp
          · rw [hcase]; exact List.Pairwise.sublist (List.eraseIdx_sublist m i3) hp
        exact ih _ m2 k v st2 hr2 hp2 hadm ⟨i2, hi2, hget2, hnodel2⟩ hrun2

/-- C1 counterexample.  The claim fails on duplicate inserts: after
`insert(1, 10); insert(1, 20)` — where `insert(1, 20)` occurred with no
later `delete(1)` — `search(1)` returns 10, the value of the first insert,
not 20: the leaf append keeps the first equal key in front and `search`
reads the first matching slot. -/
theorem insert_then_search_counterexample :
    ¬ (∀ (σ : List TreeOp) (k v : Nat) (st2 : ContentStorage × Page),
        BTree.runOps 3 BTree.initState σ = some st2 →
        (∃ i, ∃ hi : i < σ.length, σ.get ⟨i, hi⟩ = TreeOp.insOp k v ∧
          ∀ j, ∀ hj : j < σ.length, i < j → σ.get ⟨j, hj⟩ ≠ TreeOp.delOp k) →
        BTree.searchLeafRoot st2 k = some v) := by
  intro hall
  cases hr : BTree.runOps 3 BTree.initState opsExDup with
  | none => exact absurd hr (by decide)
  | some st2 =>
    have h20 := hall opsExDup 1 20 st2 hr ⟨1, by decide, by decide, by decide⟩
    have hmap : (BTree.runOps 3 BTree.initState opsExDup).map
        (fun s => BTree.searchLeafRoot s 1) = some (some 10) := by decide
    rw [hr] at hmap
    simp only [Option.map_some'] at hmap
    rw [h20] at hmap
    exact absurd (Option.some.inj hmap) (by decide)

/-- C1 amended.  For runs confined to a single leaf root — no insert ever
finds the root full, inserted keys are absent at insertion time, and
values fit in 32 bits — every `search(k)` after an `insert(k, v)` with no
later `delete(k)` returns `v`. -/
theorem insert_then_search_leafroot (maxKeysPerNode : Nat) (σ : List TreeOp) (k v : Nat)
    (st2 : ContentStorage × Page)
    (hadm : BTree.admissibleB maxKeysPerNode BTree.initState σ = true)
    (hins : ∃ i, ∃ hi : i < σ.length, σ.get ⟨i, hi⟩ = TreeOp.insOp k v ∧
        ∀ j, ∀ hj : j < σ.length, i < j → σ.get ⟨j, hj⟩ ≠ TreeOp.delOp k)
    (hrun : BTree.runOps maxKeysPerNode BTree.initState σ = some st2) :
    BTree.searchLeafRoot st2 k = some v :=
  runOps_insert_search_aux maxKeysPerNode σ BTree.initState [] k v st2 initState_repr
    List.Pairwise.nil hadm hins hrun

/-- Witness for the amended C1: after inserting keys 2 and 1 (out of
order), searching key 2 returns its value 20. -/
theorem insert_then_search_leafroot_witness :
    ∃ st2, BTree.runOps 3 BTree.initState opsExGood = some st2 ∧
      BTree.searchLeafRoot st2 2 = some 20 := by
  cases hr : BTree.runOps 3 BTree.initState opsExGood with
  | none => exact absurd hr (by decide)
  | some st2 =>
    exact ⟨st2, rfl, insert_then_search_leafroot 3 opsExGood 2 20 st2 (by decide)
      ⟨0, by decide, by decide, by decide⟩ hr⟩

/-- Helper: every completed leaf-root run keeps the view's keys weakly
sorted. -/
theorem runOps_keys_sorted_aux (maxKeysPerNode : Nat) (σ : List TreeOp) :
    ∀ (st : ContentStorage × Page) (m : List LeafEntry) (st2 : ContentStorage × Page),
    ReprLeaf st.2 m → m.Pairwise (fun a b => a.1 ≤ b.1) →
    BTree.runOps maxKeysPerNode st σ = some st2 →
    ∃ m2, ReprLeaf st2.2 m2 ∧ m2.Pairwise (fun a b => a.1 ≤ b.1) := by
  induction σ with
  | nil =>
    intro st m st2 hr hp hrun
    have hst : st2 = st := by
      have := hrun
      simp [BTree.runOps] at this
      exact this.symm
    exact ⟨m, hst ▸ hr, hp⟩
  | cons op rest ih =>
    intro st m st2 hr hp hrun
    cases op with
    | insOp k2 v2 =>
      by_cases hfull : st.2.keys.length = maxKeysPerNode
      · exact absurd hrun (by
          simp [BTree.runOps, BTree.applyOp, BTree.insertStep, hfull])
      · have hrun2 : BTree.runOps maxKeysPerNode
            (BTree.leafInsertStored st.1 st.2 k2 v2) rest = some st2 := by
          simp only [BTree.runOps, BTree.applyOp, BTree.insertStep, if_neg hfull] at hrun
          exact hrun
        have hr2 := leafInsertStored_entries st.1 st.2 m k2 v2 hr hp
        have hp2 := pairwise_le_insert m (k2, intLEBytes v2) hp
        exact ih _ _ st2 hr2 hp2 hrun2
    | delOp k2 =>
      have hrun2 : BTree.runOps maxKeysPerNode (BTree.deleteStep st k2) rest
          = some st2 := by
        simpa [BTree.runOps, BTree.applyOp] using hrun
      obtain ⟨m2, hr2, hcase⟩ := deleteStep_entries st m k2 hr
      have hp2 : m2.Pairwise (fun a b => a.1 ≤ b.1) := by
        rcases hcase with hcase | ⟨i3, hi3, hki3, hcase⟩
        · rw [hcase]; exact hp
        · rw [hcase]; exact List.Pairwise.sublist (List.eraseIdx_sublist m i3) hp
      exact ih _ m2 st2 hr2 hp2 hrun2

/-- C4 counterexample.  Inserting key 5 twice leaves the root's keys
vector `[5, 5]`: the leaf append admits the duplicate, so the keys are not
strictly ascending. -/
theorem keys_strictly_ascending_counterexample :
    (BTree.runOps 3 BTree.initState opsExDup5).map (fun st => st.2.keys) = some [5, 5] ∧
      ¬ ([5, 5] : List Nat).Sorted (· < ·) :=
  ⟨by decide, by decide⟩

/-- C4 amended.  After every insert/delete run that completes within a
single leaf root, the root page's keys vector is sorted non-decreasingly;
strict ascent fails whenever the same key is inserted twice. -/
theorem keys_sorted_leafroot (maxKeysPerNode : Nat) (σ : List TreeOp)
    (st2 : ContentStorage × Page)
    (hrun : BTree.runOps maxKeysPerNode BTree.initState σ = some st2) :
    st2.2.keys.Sorted (· ≤ ·) := by
  obtain ⟨m2, hr2, hp2⟩ := runOps_keys_sorted_aux maxKeysPerNode σ BTree.initState [] st2
    initState_repr List.Pairwise.nil hrun
  rw [hr2.2.1]
  exact List.pairwise_map.mpr hp2

/-- Witness for the amended C4: the duplicate-insert run completes with
keys `[5, 5]`, which are sorted non-decreasingly. -/
theorem keys_sorted_leafroot_witness :
    ∃ st2, BTree.runOps 3 BTree.initState opsExDup5 = some st2 ∧
      st2.2.keys.Sorted (· ≤ ·) := by
  cases hr : BTree.runOps 3 BTree.initState opsExDup5 with
  | none => exact absurd hr (by decide)
  | some st2 => exact ⟨st2, rfl, keys_sorted_leafroot 3 opsExDup5 st2 hr⟩
